import Mathlib

/-!
Shallow embedding of the two-layer cache library
(src/cache.rs, src/hashmap_compatible.rs, src/folder_compatible.rs).

Conventions of the embedding:

* Machine integers are modelled by Nat.  The single place where 64-bit
  wrap-around matters is the bit mask inside foremost_bit, where the u64
  complement of (1 <<< i) - 1 is written out as 2^64 - 2^i.

* HashMap is modelled by an association list (alook / ains / aerase),
  LruCache by a list ordered least-recently-used first: push appends the
  most recent entry at the back and evicts from the front, pop_lru takes
  the front, so draining the list front to back visits entries from
  oldest to newest, exactly as lru::LruCache does.

* The shared cell Arc<RwLock<V>> is modelled by an Entry record carrying
  the borrow state (number of outstanding read guards and the write-guard
  flag) next to the value.  In any execution of the real program those
  counters equal the numbers of live guards, so dropping a handle is
  modelled as a transition that decrements them (releaseShared /
  releaseExcl below), and Arc::try_unwrap succeeds exactly when both
  counters are zero.

* Fallible operations return a Res: ok for Ok, err for propagated backend
  errors (Rust Result::Err), and panic for the fatal contract violations
  (Rust panic! / unwrap failures), which abort instead of returning.
-/

namespace CacheModel

/-- Association-list lookup, modelling keyed access of HashMap / LruCache. -/
def alook {K α : Type} [DecidableEq K] : List (K × α) → K → Option α
  | [], _ => none
  | (k', a) :: t, k => if k = k' then some a else alook t k

/-- Remove every binding of a key, modelling HashMap::remove / LruCache::pop. -/
def aerase {K α : Type} [DecidableEq K] : List (K × α) → K → List (K × α)
  | [], _ => []
  | (k', a) :: t, k => if k = k' then aerase t k else (k', a) :: aerase t k

/-- Insert or overwrite a binding, modelling HashMap::insert. -/
def ains {K α : Type} [DecidableEq K] (l : List (K × α)) (k : K) (a : α) :
    List (K × α) :=
  (k, a) :: aerase l k

/-- Keys of an association list are pairwise distinct. -/
def KeysND {K α : Type} (l : List (K × α)) : Prop :=
  (l.map Prod.fst).Nodup

/-- An entry of the cache: the pair (bool, Arc<RwLock<V>>) of src/cache.rs.
changed is the dirty flag; readers / writer record the borrow state of the
RwLock (outstanding read guards, outstanding write guard); val is the
protected value. -/
structure Entry (V : Type) where
  changed : Bool
  readers : Nat
  writer : Bool
  val : V
deriving DecidableEq

/-- Whether the RwLock of an entry is locked in any way
(parking_lot RwLock::is_locked). -/
def Entry.is_locked {V : Type} (e : Entry V) : Bool :=
  e.readers ≠ 0 || e.writer

/-- The backend contract: traits CacheCompatible + CacheMutCompatible of
src/cache.rs, bundled.  B is the backend state, E its error type.  Each
fallible operation returns its result together with the backend state
after the call (on an error the backend keeps whatever state the failed
call left behind). -/
structure CacheMutCompatible (K V B E : Type) where
  contains : B → K → Bool
  get : B → K → Except E V × B
  replace : B → K → V → B
  insert : B → K → V → Except E Unit × B
  remove : B → K → Except E Unit × B
  commit : B → Except E Unit × B

/-- Outcome of a cache operation: ok, a propagated backend error, or a
fatal contract violation (Rust panic! / failed unwrap), which aborts. -/
inductive Res (E α : Type) where
  | ok (a : α)
  | err (e : E)
  | panic
deriving DecidableEq

def Res.ofExcept {E α : Type} : Except E α → Res E α
  | .ok a => .ok a
  | .error e => .err e

/-- State of CacheMutBase of src/cache.rs: the backend, the bounded LRU of
inactive entries (least-recently-used first; see the file comment) with
its fixed capacity, and the unordered active map. -/
structure CacheMutBase (K V B : Type) where
  compatible : B
  lru : List (K × Entry V)
  cap : Nat
  active : List (K × Entry V)
deriving DecidableEq

variable {K V B E : Type}

/-- LruCache::push: replace and promote if the key is present, otherwise
append as most recent, evicting the least recently used entry when the
list is at capacity.  Returns the new list and the displaced pair. -/
def lruPush [DecidableEq K] (cap : Nat) (l : List (K × Entry V)) (k : K)
    (e : Entry V) : List (K × Entry V) × Option (K × Entry V) :=
  match alook l k with
  | some old => (aerase l k ++ [(k, e)], some (k, old))
  | none =>
    if l.length = cap then
      match l with
      | [] => ([(k, e)], none)
      | victim :: rest => (rest ++ [(k, e)], some victim)
    else (l ++ [(k, e)], none)

namespace CacheMutBase

variable [DecidableEq K] (CC : CacheMutCompatible K V B E)

/-- CacheMutBase::new.  NonZero::new(capacity).unwrap() panics on
capacity == 0, modelled by returning none. -/
def new (compatible : B) (capacity : Nat) : Option (CacheMutBase K V B) :=
  if capacity = 0 then none
  else some ⟨compatible, [], capacity, []⟩

/-- CacheMutBase::insert. -/
def insert (s : CacheMutBase K V B) (k : K) (v : V) :
    Res E Unit × CacheMutBase K V B :=
  if (alook s.active k).isSome then (.panic, s)
  else
    match alook s.lru k with
    | some _ =>
      (.ok (), { s with lru := aerase s.lru k ++ [(k, ⟨true, 0, false, v⟩)] })
    | none =>
      let (r, b) := CC.insert s.compatible k v
      (Res.ofExcept r, { s with compatible := b })

/-- CacheMutBase::remove. -/
def remove (s : CacheMutBase K V B) (k : K) :
    Res E Unit × CacheMutBase K V B :=
  if (alook s.active k).isSome then (.panic, s)
  else
    let (r, b) := CC.remove s.compatible k
    (Res.ofExcept r, { s with compatible := b, lru := aerase s.lru k })

/-- CacheMutBase::contains. -/
def contains (s : CacheMutBase K V B) (k : K) : Bool :=
  CC.contains s.compatible k || (alook s.active k).isSome
    || (alook s.lru k).isSome

/-- CacheMutBase::get.  Returns none when the call would block forever on
the RwLock (read_arc against a held write guard).  On success the shared
borrow is recorded by incrementing readers of the entry. -/
def get (s : CacheMutBase K V B) (k : K) :
    Option (Res E V × CacheMutBase K V B) :=
  match alook s.active k with
  | some e =>
    if e.writer then none
    else
      some (.ok e.val,
        { s with active := ains s.active k { e with readers := e.readers + 1 } })
  | none =>
    match alook s.lru k with
    | some e =>
      if e.writer then none
      else
        some (.ok e.val,
          { s with lru := aerase s.lru k,
                   active := ains s.active k { e with readers := e.readers + 1 } })
    | none =>
      match CC.get s.compatible k with
      | (.error err, b) => some (.err err, { s with compatible := b })
      | (.ok v, b) =>
        some (.ok v,
          { s with compatible := b, active := ains s.active k ⟨false, 1, false, v⟩ })

/-- CacheMutBase::get_mut.  An active hit is a contract violation (panic);
a write borrow against any outstanding borrow would block (none). -/
def get_mut (s : CacheMutBase K V B) (k : K) :
    Option (Res E V × CacheMutBase K V B) :=
  match alook s.active k with
  | some _ => some (.panic, s)
  | none =>
    match alook s.lru k with
    | some e =>
      if e.writer || e.readers ≠ 0 then none
      else
        some (.ok e.val,
          { s with lru := aerase s.lru k,
                   active := ains s.active k { e with changed := true, writer := true } })
    | none =>
      match CC.get s.compatible k with
      | (.error err, b) => some (.err err, { s with compatible := b })
      | (.ok v, b) =>
        some (.ok v,
          { s with compatible := b, active := ains s.active k ⟨true, 0, true, v⟩ })

/-- One write-back of a relinquished entry: B.insert when dirty, B.replace
when clean (the body of the eviction branch of deactivate and of the
commit drain loop). -/
def writeBack (b : B) (k : K) (e : Entry V) : Except E Unit × B :=
  if e.changed then CC.insert b k e.val else (.ok (), CC.replace b k e.val)

/-- The while-let drain loop of CacheMutBase::commit: pop_lru until empty
(front of the list, i.e. oldest first), Arc::try_unwrap each cell (panic
if still borrowed), write the value back, finally B.commit.  Returns the
outcome, the backend, and the entries still in the LRU (empty unless a
backend error stopped the loop early). -/
def drain : List (K × Entry V) → B → Res E Unit × B × List (K × Entry V)
  | [], b =>
    let (r, b') := CC.commit b
    (Res.ofExcept r, b', [])
  | (k, e) :: rest, b =>
    if e.is_locked then (.panic, b, (k, e) :: rest)
    else
      match writeBack CC b k e with
      | (.ok _, b') => drain rest b'
      | (.error err, b') => (.err err, b', rest)

/-- CacheMutBase::commit. -/
def commit (s : CacheMutBase K V B) : Res E Unit × CacheMutBase K V B :=
  if s.active.length ≠ 0 then (.panic, s)
  else
    let (r, b, rest) := drain CC s.lru s.compatible
    (r, { s with compatible := b, lru := rest })

/-- CacheMutBase::deactivate: move the key out of active, push it into the
LRU, and write the displaced victim (if any) back to the backend after
taking unique ownership of its cell. -/
def deactivate (s : CacheMutBase K V B) (k : K) :
    Res E Unit × CacheMutBase K V B :=
  match alook s.active k with
  | none => (.ok (), s)
  | some item =>
    let s1 : CacheMutBase K V B := { s with active := aerase s.active k }
    let (lru', out) := lruPush s1.cap s1.lru k item
    let s2 : CacheMutBase K V B := { s1 with lru := lru' }
    match out with
    | none => (.ok (), s2)
    | some (k', e') =>
      if e'.is_locked then (.panic, s2)
      else
        let (r, b) := writeBack CC s2.compatible k' e'
        (Res.ofExcept r, { s2 with compatible := b })

/-- Drop of a CMRef handle on key k: the read guard is released first
(readers decremented), then RefReturn::drop looks the key up in active
(unwrap: panic if absent) and calls deactivate unless the cell is still
locked; a deactivate error is discarded (let _ = ...). -/
def releaseShared (s : CacheMutBase K V B) (k : K) :
    Res E Unit × CacheMutBase K V B :=
  match alook s.active k with
  | none => (.panic, s)
  | some e =>
    let e' : Entry V := { e with readers := e.readers - 1 }
    let s1 : CacheMutBase K V B := { s with active := ains s.active k e' }
    if e'.is_locked then (.ok (), s1)
    else (.ok (), (deactivate CC s1 k).2)

/-- Drop of a CMRefMut handle on key k carrying final value v (mutations
through the handle land in the cell before the guard is released):
the write guard is released, then RefReturn::drop as above. -/
def releaseExcl (s : CacheMutBase K V B) (k : K) (v : V) :
    Res E Unit × CacheMutBase K V B :=
  match alook s.active k with
  | none => (.panic, s)
  | some e =>
    let e' : Entry V := { e with writer := false, val := v }
    let s1 : CacheMutBase K V B := { s with active := ains s.active k e' }
    if e'.is_locked then (.ok (), s1)
    else (.ok (), (deactivate CC s1 k).2)

/-- CacheMutBase::cap. -/
def capacity (s : CacheMutBase K V B) : Nat := s.cap

/-- CacheMutBase::active. -/
def activeP (s : CacheMutBase K V B) (k : K) : Bool :=
  (alook s.active k).isSome

/-- CacheMutBase::num_active. -/
def num_active (s : CacheMutBase K V B) : Nat := s.active.length

end CacheMutBase

/-- One observable transition of the cache: a public operation completing
(with any non-panicking outcome; a panic aborts the program and a blocked
lock call never returns, so neither yields a next observable state), or
the drop of an outstanding handle.  A handle exists exactly when the
borrow counters of the key's active entry record it, so the drop steps
are guarded by those counters. -/
inductive Step [DecidableEq K] (CC : CacheMutCompatible K V B E) :
    CacheMutBase K V B → CacheMutBase K V B → Prop where
  | insert (s : CacheMutBase K V B) (k : K) (v : V)
      (h : (CacheMutBase.insert CC s k v).1 ≠ .panic) :
      Step CC s (CacheMutBase.insert CC s k v).2
  | remove (s : CacheMutBase K V B) (k : K)
      (h : (CacheMutBase.remove CC s k).1 ≠ .panic) :
      Step CC s (CacheMutBase.remove CC s k).2
  | get (s : CacheMutBase K V B) (k : K) (r : Res E V) (s' : CacheMutBase K V B)
      (h : CacheMutBase.get CC s k = some (r, s')) : Step CC s s'
  | get_mut (s : CacheMutBase K V B) (k : K) (r : Res E V)
      (s' : CacheMutBase K V B)
      (h : CacheMutBase.get_mut CC s k = some (r, s')) (hp : r ≠ .panic) :
      Step CC s s'
  | commit (s : CacheMutBase K V B)
      (h : (CacheMutBase.commit CC s).1 ≠ .panic) :
      Step CC s (CacheMutBase.commit CC s).2
  | releaseShared (s : CacheMutBase K V B) (k : K) (e : Entry V)
      (he : alook s.active k = some e) (hr : e.readers ≠ 0)
      (hw : e.writer = false) :
      Step CC s (CacheMutBase.releaseShared CC s k).2
  | releaseExcl (s : CacheMutBase K V B) (k : K) (v : V) (e : Entry V)
      (he : alook s.active k = some e) (hw : e.writer = true) :
      Step CC s (CacheMutBase.releaseExcl CC s k v).2

/-- Reachability by any number of observable transitions. -/
def Reach [DecidableEq K] (CC : CacheMutCompatible K V B E) :
    CacheMutBase K V B → CacheMutBase K V B → Prop :=
  Relation.ReflTransGen (Step CC)

/-- The inductive invariant of the cache core.  Keys of active and of the
LRU are each distinct and mutually disjoint; every active entry has at
least one outstanding borrow (a pinned entry is exactly one with a live
handle); a write borrow excludes read borrows; LRU entries are unborrowed;
the LRU never exceeds its capacity. -/
structure Inv [DecidableEq K] (s : CacheMutBase K V B) : Prop where
  nd_active : KeysND s.active
  nd_lru : KeysND s.lru
  disj : ∀ k : K, (alook s.active k).isSome → alook s.lru k = none
  act_locked : ∀ p ∈ s.active, p.2.readers ≠ 0 ∨ p.2.writer = true
  act_excl : ∀ p ∈ s.active, p.2.writer = true → p.2.readers = 0
  lru_unlocked : ∀ p ∈ s.lru, p.2.readers = 0 ∧ p.2.writer = false
  len_le : s.lru.length ≤ s.cap
  cap_pos : 1 ≤ s.cap

/-- Error of the in-memory backend (src/hashmap_compatible.rs). -/
inductive NotInMap where
  | mk
deriving DecidableEq

/-- The in-memory backend of src/hashmap_compatible.rs: HashMap<K, V>
modelled as an association list.  get removes the value from the map
(ownership moves out), replace re-inserts it. -/
def hashmapCompatible (K V : Type) [DecidableEq K] :
    CacheMutCompatible K V (List (K × V)) NotInMap where
  contains b k := (alook b k).isSome
  get b k :=
    match alook b k with
    | some v => (.ok v, aerase b k)
    | none => (.error .mk, b)
  replace b k v := ains b k v
  insert b k v := (.ok (), ains b k v)
  remove b k := (.ok (), aerase b k)
  commit b := (.ok (), b)

/-- Modelled from the spec, for comparison with the code: the write-back
sentence of (I4) — when the cache relinquishes an entry, the backend
receives insert(k,v) if dirty, else replace(k,v). -/
def specWriteBack (CC : CacheMutCompatible K V B E) (b : B) (k : K)
    (e : Entry V) : Except E Unit × B :=
  if e.changed then CC.insert b k e.val else (.ok (), CC.replace b k e.val)

/-- Modelled from the spec, for comparison with the code: the commit
sentence — drain the LRU from oldest to newest (front to back of the
oldest-first list), write each entry back per (I4), finally call
B.commit. -/
def specDrain [DecidableEq K] (CC : CacheMutCompatible K V B E) :
    List (K × Entry V) → B → Res E Unit × B
  | [], b =>
    let (r, b') := CC.commit b
    (Res.ofExcept r, b')
  | (k, e) :: rest, b =>
    match specWriteBack CC b k e with
    | (.ok _, b') => specDrain CC rest b'
    | (.error err, b') => (.err err, b')

/-- Concrete backend contents used by the witnesses. -/
def wBack : List (Nat × Nat) := [(3, 30)]

/-- A freshly constructed concrete cache state used by the witnesses. -/
def wS0 : CacheMutBase Nat Nat (List (Nat × Nat)) := ⟨wBack, [], 2, []⟩

/-- A concrete state with one dirty and one clean LRU entry. -/
def wS2 : CacheMutBase Nat Nat (List (Nat × Nat)) :=
  ⟨[], [(5, ⟨true, 0, false, 7⟩), (6, ⟨false, 0, false, 8⟩)], 2, []⟩

/-- A concrete state with one active (shared-borrowed) entry and a full
LRU. -/
def wS3 : CacheMutBase Nat Nat (List (Nat × Nat)) :=
  ⟨[], [(5, ⟨false, 0, false, 7⟩)], 1, [(1, ⟨false, 1, false, 9⟩)]⟩

/-- The external serialization codec (rmp_serde): encode is total, decode
is the exact inverse of encode (spec, section 6). -/
structure Codec (α : Type) where
  enc : α → List Nat
  dec : List Nat → Option α
  dec_enc : ∀ a, dec (enc a) = some a

/-- FolderCacheError of src/folder_compatible.rs.  Encode errors cannot
arise here (enc is total), I/O errors stand for file-system failures. -/
inductive FolderCacheError where
  | decodeErr
  | ioErr
  | nothing
deriving DecidableEq

/-- One live record slot: serialized key bytes and value bytes (the
entry header kLen/vLen is determined by their lengths). -/
structure Slot where
  kser : List Nat
  vser : List Nat
deriving DecidableEq

/-- One bucket file: CacheLevel1 of src/folder_compatible.rs.  num_items
is the number of live slots, kept as the length of the slots list. -/
structure CacheLevel1 where
  size_per_item : Nat
  reserved : Nat
  slots : List Slot
deriving DecidableEq

def CacheLevel1.num_items (b : CacheLevel1) : Nat := b.slots.length

/-- Ref of src/folder_compatible.rs: bucket size and slot index of a
live record. -/
structure Ref where
  file : Nat
  index : Nat
deriving DecidableEq

/-- The loop body of foremost_bit: for i in 0..64, return the first i
with !((1 << i) - 1) & x == 0; the u64 complement of 2^i - 1 is
2^64 - 2^i.  The fuel argument counts the remaining iterations. -/
def fbGo (x : Nat) : Nat → Nat → Nat
  | _, 0 => 64
  | i, fuel + 1 => if (2 ^ 64 - 2 ^ i) &&& x = 0 then i else fbGo x (i + 1) fuel

/-- foremost_bit of src/folder_compatible.rs. -/
def foremost_bit (x : Nat) : Nat := fbGo x 0 64

/-- The bucket size chosen for a record of framed length full_len, the
expression 1 << (foremost_bit(full_len) + 1) appearing in both
CacheLevel2::add and CacheLevel2::overwrite. -/
def bucket_size (full_len : Nat) : Nat := 1 <<< (foremost_bit full_len + 1)

/-- CacheLevel1::swap_remove: delete slot i by moving the last live slot
over it (no move if it is the last); returns the key decoded from the
moved record so the index can be patched. -/
def CacheLevel1.swap_remove {K : Type} (ck : Codec K) (b : CacheLevel1)
    (i : Nat) : Except FolderCacheError (CacheLevel1 × Option K) :=
  if i = b.num_items - 1 then
    .ok ({ b with slots := b.slots.take (b.num_items - 1) }, none)
  else
    match b.slots.get? (b.num_items - 1) with
    | none => .error .ioErr
    | some last =>
      match ck.dec last.kser with
      | none => .error .decodeErr
      | some k =>
        .ok ({ b with slots := (b.slots.set i last).take (b.num_items - 1) },
          some k)

/-- CacheLevel1::add: double reserved when full, append the record at
slot num_items, return its index. -/
def CacheLevel1.add (b : CacheLevel1) (kser vser : List Nat) :
    CacheLevel1 × Nat :=
  let b1 := if b.num_items ≥ b.reserved then
    { b with reserved := b.reserved * 2 } else b
  ({ b1 with slots := b1.slots ++ [⟨kser, vser⟩] }, b.num_items)

/-- CacheLevel1::overwrite: write a (fitting) record over slot i. -/
def CacheLevel1.overwrite (b : CacheLevel1) (i : Nat) (kser vser : List Nat) :
    CacheLevel1 :=
  { b with slots := b.slots.set i ⟨kser, vser⟩ }

/-- Find the bucket of a given slot size (the sorted-Vec binary_search of
CacheLevel2; bucket sizes are unique, so the first hit is the bucket). -/
def lookupLevel1 : List CacheLevel1 → Nat → Option CacheLevel1
  | [], _ => none
  | b :: rest, sz =>
    if b.size_per_item = sz then some b else lookupLevel1 rest sz

/-- Write back an updated bucket over the bucket of the given size. -/
def updateLevel1 : List CacheLevel1 → Nat → CacheLevel1 → List CacheLevel1
  | [], _, _ => []
  | b :: rest, sz, b' =>
    if b.size_per_item = sz then b' :: updateLevel1 rest sz b'
    else b :: updateLevel1 rest sz b'

/-- Insert a new bucket at its sorted position (Vec::insert at the
binary_search insertion point). -/
def insertSorted (files : List CacheLevel1) (nb : CacheLevel1) :
    List CacheLevel1 :=
  match files with
  | [] => [nb]
  | b :: rest =>
    if nb.size_per_item ≤ b.size_per_item then nb :: b :: rest
    else b :: insertSorted rest nb

/-- CacheLevel2::switch_open / new_file: find the bucket of size sz,
creating it (reserved = 4, empty) when absent. -/
def ensureLevel1 (files : List CacheLevel1) (sz : Nat) :
    List CacheLevel1 × CacheLevel1 :=
  match lookupLevel1 files sz with
  | some b => (files, b)
  | none =>
    let nb : CacheLevel1 := ⟨sz, 4, []⟩
    (insertSorted files nb, nb)

/-- CacheLevel2::add. -/
def lvl2Add {K V : Type} (ck : Codec K) (cv : Codec V)
    (files : List CacheLevel1) (k : K) (v : V) : List CacheLevel1 × Ref :=
  let kser := ck.enc k
  let vser := cv.enc v
  let file := bucket_size (kser.length + vser.length + 16)
  let fb := ensureLevel1 files file
  let ba := fb.2.add kser vser
  (updateLevel1 fb.1 file ba.1, ⟨file, ba.2⟩)

/-- CacheLevel2::overwrite: rewrite in place when the new record maps to
the same bucket; otherwise swap-remove the old slot (migrating some other
record into it) and add to the new bucket.  Returns none for in-place, or
(key moved into the vacated slot, new Ref). -/
def lvl2Overwrite {K V : Type} (ck : Codec K) (cv : Codec V)
    (files : List CacheLevel1) (old_ref : Ref) (k : K) (v : V) :
    Except FolderCacheError (List CacheLevel1 × Option (Option K × Ref)) :=
  let kser := ck.enc k
  let vser := cv.enc v
  let file := bucket_size (kser.length + vser.length + 16)
  if file = old_ref.file then
    match lookupLevel1 files file with
    | none => .error .ioErr
    | some b =>
      .ok (updateLevel1 files file (b.overwrite old_ref.index kser vser), none)
  else
    match lookupLevel1 files old_ref.file with
    | none => .error .ioErr
    | some b =>
      match b.swap_remove ck old_ref.index with
      | .error e => .error e
      | .ok (b', moved) =>
        let files1 := updateLevel1 files old_ref.file b'
        let fb := ensureLevel1 files1 file
        let ba := fb.2.add kser vser
        .ok (updateLevel1 fb.1 file ba.1, some (moved, ⟨file, ba.2⟩))

/-- CacheLevel2::remove. -/
def lvl2Remove {K : Type} (ck : Codec K) (files : List CacheLevel1)
    (r : Ref) : Except FolderCacheError (List CacheLevel1 × Option K) :=
  match lookupLevel1 files r.file with
  | none => .error .ioErr
  | some b =>
    match b.swap_remove ck r.index with
    | .error e => .error e
    | .ok (b', moved) => .ok (updateLevel1 files r.file b', moved)

/-- CacheLevel2::get_v via CacheLevel1::read_v: seek to the slot, read
vLen value bytes, decode. -/
def lvl2GetV {V : Type} (cv : Codec V) (files : List CacheLevel1) (r : Ref) :
    Except FolderCacheError V :=
  match lookupLevel1 files r.file with
  | none => .error .ioErr
  | some b =>
    match b.slots.get? r.index with
    | none => .error .ioErr
    | some sl =>
      match cv.dec sl.vser with
      | none => .error .decodeErr
      | some v => .ok v

/-- FolderCache of src/folder_compatible.rs: the bucket files and the
in-memory index.  The folder path and the open-file handle carry no
stored data and are omitted. -/
structure FolderCache (K : Type) where
  lvl2 : List CacheLevel1
  map : K → Option Ref

/-- HashMap::insert on the index. -/
def mapIns {K : Type} [DecidableEq K] (m : K → Option Ref) (k : K) (r : Ref) :
    K → Option Ref :=
  fun k' => if k' = k then some r else m k'

/-- HashMap::remove on the index. -/
def mapDel {K : Type} [DecidableEq K] (m : K → Option Ref) (k : K) :
    K → Option Ref :=
  fun k' => if k' = k then none else m k'

/-- FolderCache::insert.  On an overwrite that changed buckets, the new
key is pointed at the new Ref and the record displaced by the
swap-removal (if any) is re-pointed at the old Ref, in that order. -/
def FolderCache.insert {K V : Type} [DecidableEq K] (ck : Codec K)
    (cv : Codec V) (s : FolderCache K) (k : K) (v : V) :
    Except FolderCacheError Unit × FolderCache K :=
  match s.map k with
  | some old_ref =>
    match lvl2Overwrite ck cv s.lvl2 old_ref k v with
    | .error e => (.error e, s)
    | .ok (files', none) => (.ok (), { s with lvl2 := files' })
    | .ok (files', some (replace_k, new_ref)) =>
      let m1 := mapIns s.map k new_ref
      let m2 := match replace_k with
        | some moved_k => mapIns m1 moved_k old_ref
        | none => m1
      (.ok (), ⟨files', m2⟩)
  | none =>
    let fr := lvl2Add ck cv s.lvl2 k v
    (.ok (), ⟨fr.1, mapIns s.map k fr.2⟩)

/-- FolderCache::get: index lookup, then read the value from the slot;
an absent key reports the not-present error. -/
def FolderCache.get {K V : Type} (cv : Codec V) (s : FolderCache K) (k : K) :
    Except FolderCacheError V :=
  match s.map k with
  | some refv => lvl2GetV cv s.lvl2 refv
  | none => .error .nothing

/-- FolderCache::remove.  The index entry is removed first (HashMap
remove); if the swap-removal moved another record into the vacated slot,
that record's key is re-pointed at the old Ref. -/
def FolderCache.remove {K : Type} [DecidableEq K] (ck : Codec K)
    (s : FolderCache K) (k : K) :
    Except FolderCacheError Unit × FolderCache K :=
  match s.map k with
  | none => (.ok (), s)
  | some old_ref =>
    let m1 := mapDel s.map k
    match lvl2Remove ck s.lvl2 old_ref with
    | .error e => (.error e, { s with map := m1 })
    | .ok (files', moved) =>
      match moved with
      | some other_k => (.ok (), ⟨files', mapIns m1 other_k old_ref⟩)
      | none => (.ok (), ⟨files', m1⟩)

/-- The per-bucket loop body of CacheLevel2::load_to_hashmap: walk the
live slots in order, decode only the key, record key -> (size, i). -/
def loadSlots {K : Type} [DecidableEq K] (ck : Codec K) (sz : Nat) :
    List Slot → Nat → (K → Option Ref) →
      Except FolderCacheError (K → Option Ref)
  | [], _, m => .ok m
  | sl :: rest, i, m =>
    match ck.dec sl.kser with
    | none => .error .decodeErr
    | some k => loadSlots ck sz rest (i + 1) (mapIns m k ⟨sz, i⟩)

/-- CacheLevel2::load_to_hashmap: all buckets in file order. -/
def load_to_hashmap {K : Type} [DecidableEq K] (ck : Codec K) :
    List CacheLevel1 → (K → Option Ref) →
      Except FolderCacheError (K → Option Ref)
  | [], m => .ok m
  | b :: rest, m =>
    match loadSlots ck b.size_per_item b.slots 0 m with
    | .error e => .error e
    | .ok m' => load_to_hashmap ck rest m'

/-- FolderCache::continued: reopen a folder, scanning every bucket file
and rebuilding the index from the keys stored on disk. -/
def FolderCache.continued {K : Type} [DecidableEq K] (ck : Codec K)
    (files : List CacheLevel1) : Except FolderCacheError (FolderCache K) :=
  match load_to_hashmap ck files (fun _ => none) with
  | .error e => .error e
  | .ok m => .ok ⟨files, m⟩

/-- FolderCache::cleared: delete every bucket file, start empty. -/
def FolderCache.cleared (K : Type) : FolderCache K :=
  ⟨[], fun _ => none⟩

/-- The backend instance of the folder cache (impl CacheCompatible /
CacheMutCompatible for FolderCache): get reads without touching the
stored data, replace and commit are no-ops. -/
def folderCompatible {K V : Type} [DecidableEq K] (ck : Codec K)
    (cv : Codec V) :
    CacheMutCompatible K V (FolderCache K) FolderCacheError where
  contains s k := (s.map k).isSome
  get s k := (FolderCache.get cv s k, s)
  replace s _ _ := s
  insert s k v := FolderCache.insert ck cv s k v
  remove s k := FolderCache.remove ck s k
  commit s := (.ok (), s)

/-- The folder-backend invariant: bucket sizes are unique; every live
slot holds an encoded record whose key the index maps exactly to that
slot; every index entry points at a live slot whose stored key decodes
to it. -/
structure GoodFolder {K V : Type} [DecidableEq K] (ck : Codec K)
    (cv : Codec V) (s : FolderCache K) : Prop where
  nd_sizes : (s.lvl2.map CacheLevel1.size_per_item).Nodup
  slot2idx : ∀ b ∈ s.lvl2, ∀ (i : Nat) (sl : Slot), b.slots.get? i = some sl →
    ∃ (k : K) (v : V), sl = ⟨ck.enc k, cv.enc v⟩ ∧
      s.map k = some ⟨b.size_per_item, i⟩
  idx2slot : ∀ (k : K) (f i : Nat), s.map k = some ⟨f, i⟩ →
    ∃ b ∈ s.lvl2, b.size_per_item = f ∧ ∃ sl : Slot,
      b.slots.get? i = some sl ∧ ck.dec sl.kser = some k

/-- All cached entries are clean (no insert over a cached key and no
exclusive handle was ever taken). -/
def AllClean {K V B : Type} (s : CacheMutBase K V B) : Prop :=
  (∀ p ∈ s.active, p.2.changed = false) ∧ (∀ p ∈ s.lru, p.2.changed = false)

/-- No exclusive handle is outstanding. -/
def NoWriter {K V B : Type} (s : CacheMutBase K V B) : Prop :=
  ∀ p ∈ s.active, p.2.writer = false

/-- One round of the idempotence experiment: cache.get(k) followed by
dropping the returned shared handle.  none when the get fails or blocks. -/
def getDrop [DecidableEq K] (CC : CacheMutCompatible K V B E)
    (s : CacheMutBase K V B) (k : K) : Option (CacheMutBase K V B) :=
  match CacheMutBase.get CC s k with
  | some (.ok _, s') => some (CacheMutBase.releaseShared CC s' k).2
  | _ => none

/-- getDrop repeated n times. -/
def getDropN [DecidableEq K] (CC : CacheMutCompatible K V B E) :
    Nat → CacheMutBase K V B → K → Option (CacheMutBase K V B)
  | 0, s, _ => some s
  | n + 1, s, k =>
    match getDrop CC s k with
    | some s' => getDropN CC n s' k
    | none => none

/-- A concrete codec on Nat used by the witnesses. -/
def natCodec : Codec Nat where
  enc n := [n]
  dec l :=
    match l with
    | [n] => some n
    | _ => none
  dec_enc _ := rfl

/-- A concrete one-record folder used by the witnesses. -/
def wFolder : FolderCache Nat :=
  ⟨[⟨32, 4, [⟨[7], [70]⟩]⟩], fun k => if k = 7 then some ⟨32, 0⟩ else none⟩

/-- The concrete cache over the one-record folder used by the witnesses. -/
def wFS : CacheMutBase Nat Nat (FolderCache Nat) := ⟨wFolder, [], 1, []⟩

/-- A client-visible folder-backend operation. -/
inductive FOp (K V : Type) where
  | ins (k : K) (v : V)
  | rem (k : K)

/-- Run a sequence of FolderCache::insert / FolderCache::remove calls,
keeping the state each call leaves behind. -/
def runF {K V : Type} [DecidableEq K] (ck : Codec K) (cv : Codec V) :
    FolderCache K → List (FOp K V) → FolderCache K
  | s, [] => s
  | s, .ins k v :: rest => runF ck cv (FolderCache.insert ck cv s k v).2 rest
  | s, .rem k :: rest => runF ck cv (FolderCache.remove ck s k).2 rest

/-- A straight-line client: CacheMutBase::insert for each pair in turn. -/
def runCacheInserts {K V B E : Type} [DecidableEq K]
    (CC : CacheMutCompatible K V B E) :
    CacheMutBase K V B → List (K × V) → CacheMutBase K V B
  | s, [] => s
  | s, p :: rest =>
    runCacheInserts CC (CacheMutBase.insert CC s p.1 p.2).2 rest

/-- The same client pushed down to the backend alone. -/
def runBInserts {K V B E : Type} [DecidableEq K]
    (CC : CacheMutCompatible K V B E) : B → List (K × V) → B
  | b, [] => b
  | b, p :: rest => runBInserts CC (CC.insert b p.1 p.2).2 rest

@[simp]
theorem alook_nil {K α : Type} [DecidableEq K] (k : K) :
    alook ([] : List (K × α)) k = none := rfl

@[simp]
theorem alook_cons {K α : Type} [DecidableEq K] (k k' : K) (a : α)
    (t : List (K × α)) :
    alook ((k', a) :: t) k = if k = k' then some a else alook t k := rfl

@[simp]
theorem alook_aerase_self {K α : Type} [DecidableEq K] (l : List (K × α)) (k : K) :
    alook (aerase l k) k = none := by
  induction l with
  | nil => rfl
  | cons p t ih =>
    obtain ⟨k', a⟩ := p
    by_cases h : k = k'
    · subst h
      simpa [aerase] using ih
    · simp [aerase, h, ih]

theorem alook_aerase_ne {K α : Type} [DecidableEq K] (l : List (K × α))
    {k k' : K} (h : k' ≠ k) : alook (aerase l k) k' = alook l k' := by
  induction l with
  | nil => rfl
  | cons p t ih =>
    obtain ⟨k'', a⟩ := p
    by_cases h2 : k = k''
    · subst h2
      simp [aerase, h, ih]
    · by_cases h3 : k' = k'' <;> simp [aerase, h2, h3, ih]

@[simp]
theorem alook_ains_self {K α : Type} [DecidableEq K] (l : List (K × α))
    (k : K) (a : α) : alook (ains l k a) k = some a := by
  simp [ains]

theorem alook_ains_ne {K α : Type} [DecidableEq K] (l : List (K × α))
    {k k' : K} (a : α) (h : k' ≠ k) : alook (ains l k a) k' = alook l k' := by
  simp [ains, h, alook_aerase_ne l h]

theorem mem_aerase {K α : Type} [DecidableEq K] {l : List (K × α)} {k : K}
    {p : K × α} (h : p ∈ aerase l k) : p ∈ l ∧ p.1 ≠ k := by
  induction l with
  | nil => simp [aerase] at h
  | cons q t ih =>
    obtain ⟨k', a⟩ := q
    by_cases h2 : k = k'
    · subst h2
      simp only [aerase, if_pos rfl] at h
      obtain ⟨h3, h4⟩ := ih h
      exact ⟨List.mem_cons_of_mem _ h3, h4⟩
    · simp only [aerase, if_neg h2] at h
      rcases List.mem_cons.mp h with h3 | h3
      · subst h3
        exact ⟨List.mem_cons_self _ _, fun hk => h2 hk.symm⟩
      · obtain ⟨h4, h5⟩ := ih h3
        exact ⟨List.mem_cons_of_mem _ h4, h5⟩

theorem mem_ains {K α : Type} [DecidableEq K] {l : List (K × α)} {k : K}
    {a : α} {p : K × α} (h : p ∈ ains l k a) : p = (k, a) ∨ p ∈ l := by
  rcases List.mem_cons.mp h with h2 | h2
  · exact Or.inl h2
  · exact Or.inr (mem_aerase h2).1

theorem alook_some_mem {K α : Type} [DecidableEq K] {l : List (K × α)} {k : K}
    {a : α} (h : alook l k = some a) : (k, a) ∈ l := by
  induction l with
  | nil => simp [alook] at h
  | cons q t ih =>
    obtain ⟨k', a'⟩ := q
    by_cases h2 : k = k'
    · subst h2
      have h3 : a' = a := by simpa [alook] using h
      subst h3
      exact List.mem_cons_self _ _
    · simp only [alook, if_neg h2] at h
      exact List.mem_cons_of_mem _ (ih h)

theorem keysND_nil {K α : Type} : KeysND ([] : List (K × α)) := by
  simp [KeysND]

theorem keysND_aerase {K α : Type} [DecidableEq K] {l : List (K × α)}
    (h : KeysND l) (k : K) : KeysND (aerase l k) := by
  induction l with
  | nil => exact h
  | cons p t ih =>
    obtain ⟨k', a⟩ := p
    simp only [KeysND, List.map_cons, List.nodup_cons] at h
    by_cases h2 : k = k'
    · simpa [aerase, h2] using ih h.2
    · simp only [aerase, if_neg h2, KeysND, List.map_cons, List.nodup_cons]
      refine ⟨fun hc => h.1 ?_, ih h.2⟩
      obtain ⟨p, hp, hp2⟩ := List.mem_map.mp hc
      exact List.mem_map.mpr ⟨p, (mem_aerase hp).1, hp2⟩

theorem not_mem_keys_aerase {K α : Type} [DecidableEq K] (l : List (K × α))
    (k : K) : k ∉ (aerase l k).map Prod.fst := by
  intro hc
  obtain ⟨p, hp, hp2⟩ := List.mem_map.mp hc
  exact (mem_aerase hp).2 hp2

theorem keysND_ains {K α : Type} [DecidableEq K] {l : List (K × α)}
    (h : KeysND l) (k : K) (a : α) : KeysND (ains l k a) := by
  simp only [ains, KeysND, List.map_cons, List.nodup_cons]
  exact ⟨not_mem_keys_aerase l k, keysND_aerase h k⟩

theorem aerase_length_le {K α : Type} [DecidableEq K] (l : List (K × α))
    (k : K) : (aerase l k).length ≤ l.length := by
  induction l with
  | nil => simp [aerase]
  | cons p t ih =>
    obtain ⟨k', a⟩ := p
    by_cases h : k = k'
    · subst h
      simp only [aerase, List.length_cons, if_pos rfl, reduceIte] at ih ⊢
      omega
    · simp only [aerase, if_neg h, List.length_cons]
      omega

theorem aerase_length_lt {K α : Type} [DecidableEq K] {l : List (K × α)}
    {k : K} {a : α} (h : alook l k = some a) :
    (aerase l k).length < l.length := by
  induction l with
  | nil => simp [alook] at h
  | cons p t ih =>
    obtain ⟨k', a'⟩ := p
    by_cases h2 : k = k'
    · have := aerase_length_le t k
      simp only [aerase, if_pos h2, List.length_cons]
      omega
    · simp only [alook, if_neg h2] at h
      have := ih h
      simp only [aerase, if_neg h2, List.length_cons]
      omega

theorem alook_append_of_none {K α : Type} [DecidableEq K] {l₁ : List (K × α)}
    (l₂ : List (K × α)) {k : K} (h : alook l₁ k = none) :
    alook (l₁ ++ l₂) k = alook l₂ k := by
  induction l₁ with
  | nil => rfl
  | cons p t ih =>
    obtain ⟨k', a⟩ := p
    by_cases h2 : k = k'
    · simp [alook, h2] at h
    · simp only [alook, if_neg h2] at h
      simpa [alook, h2] using ih h

theorem alook_append_of_some {K α : Type} [DecidableEq K] {l₁ : List (K × α)}
    (l₂ : List (K × α)) {k : K} {a : α} (h : alook l₁ k = some a) :
    alook (l₁ ++ l₂) k = some a := by
  induction l₁ with
  | nil => simp [alook] at h
  | cons p t ih =>
    obtain ⟨k', a'⟩ := p
    by_cases h2 : k = k'
    · simp only [alook, if_pos h2] at h
      simp [alook, if_pos h2, h]
    · simp only [alook, if_neg h2] at h
      simpa [alook, h2] using ih h

theorem alook_none_tail {K α : Type} [DecidableEq K] {p : K × α}
    {t : List (K × α)} {k : K} (h : alook (p :: t) k = none) :
    alook t k = none := by
  obtain ⟨k', a⟩ := p
  by_cases h2 : k = k'
  · simp [alook, h2] at h
  · simpa [alook, h2] using h

theorem alook_eq_none_iff {K α : Type} [DecidableEq K] (l : List (K × α))
    (k : K) : alook l k = none ↔ k ∉ l.map Prod.fst := by
  induction l with
  | nil => simp [alook]
  | cons p t ih =>
    obtain ⟨k', a⟩ := p
    by_cases h2 : k = k'
    · subst h2
      simp [alook]
    · simp [alook, h2, ih, Ne.symm, fun h => h2 h]

theorem keysND_alook_of_mem {K α : Type} [DecidableEq K] {l : List (K × α)}
    (hnd : KeysND l) {k : K} {a : α} (h : (k, a) ∈ l) : alook l k = some a := by
  induction l with
  | nil => simp at h
  | cons p t ih =>
    obtain ⟨k', a'⟩ := p
    simp only [KeysND, List.map_cons, List.nodup_cons] at hnd
    rcases List.mem_cons.mp h with h2 | h2
    · injection h2 with h3 h4
      subst h3
      subst h4
      simp [alook]
    · have hk : k ≠ k' := by
        intro hkk
        subst hkk
        exact hnd.1 (List.mem_map.mpr ⟨(k, a), h2, rfl⟩)
      simp only [alook, if_neg hk]
      exact ih hnd.2 h2

theorem keysND_concat {K α : Type} [DecidableEq K] {l : List (K × α)}
    (hnd : KeysND l) {k : K} (hk : k ∉ l.map Prod.fst) (a : α) :
    KeysND (l ++ [(k, a)]) := by
  simp only [KeysND, List.map_append, List.map_cons, List.map_nil]
  rw [List.nodup_append]
  refine ⟨hnd, List.nodup_singleton k, ?_⟩
  intro x hx hx2
  simp only [List.mem_singleton] at hx2
  subst hx2
  exact hk hx

theorem keysND_tail {K α : Type} {p : K × α} {t : List (K × α)}
    (h : KeysND (p :: t)) : KeysND t := by
  simp only [KeysND, List.map_cons, List.nodup_cons] at h
  exact h.2

theorem inv_compat_irrel [DecidableEq K] {s : CacheMutBase K V B} (b : B)
    (h : Inv s) : Inv { s with compatible := b } :=
  { nd_active := h.nd_active, nd_lru := h.nd_lru, disj := h.disj,
    act_locked := h.act_locked, act_excl := h.act_excl,
    lru_unlocked := h.lru_unlocked, len_le := h.len_le, cap_pos := h.cap_pos }

theorem deactivate_shape [DecidableEq K] (CC : CacheMutCompatible K V B E)
    (s : CacheMutBase K V B) (k : K) (item : Entry V)
    (hx : alook s.active k = some item) :
    ∃ b : B, (CacheMutBase.deactivate CC s k).2 =
      ⟨b, (lruPush s.cap s.lru k item).1, s.cap, aerase s.active k⟩ := by
  unfold CacheMutBase.deactivate
  rw [hx]
  simp only []
  cases h2 : lruPush s.cap s.lru k item with
  | mk lru' out =>
    cases out with
    | none => exact ⟨s.compatible, by simp [h2]⟩
    | some p =>
      obtain ⟨k', e'⟩ := p
      by_cases hlk : e'.is_locked
      · exact ⟨s.compatible, by simp [h2, hlk]⟩
      · exact ⟨(CacheMutBase.writeBack CC s.compatible k' e').2, by
          simp [h2, hlk]⟩

/-- deactivate preserves the invariant; the entry being deactivated is
allowed (in fact required, at the call sites inside the handle drops) to
be unborrowed, so the active-entries-are-borrowed clause is assumed only
away from k. -/
theorem inv_deactivate [DecidableEq K] (CC : CacheMutCompatible K V B E)
    (s : CacheMutBase K V B) (k : K)
    (hnda : KeysND s.active) (hndl : KeysND s.lru)
    (hdisj : ∀ k' : K, (alook s.active k').isSome → alook s.lru k' = none)
    (hal : ∀ p ∈ s.active, p.1 ≠ k → p.2.readers ≠ 0 ∨ p.2.writer = true)
    (hae : ∀ p ∈ s.active, p.2.writer = true → p.2.readers = 0)
    (hlu : ∀ p ∈ s.lru, p.2.readers = 0 ∧ p.2.writer = false)
    (hku : ∀ e : Entry V, alook s.active k = some e →
      e.readers = 0 ∧ e.writer = false)
    (hlen : s.lru.length ≤ s.cap) (hcap : 1 ≤ s.cap) :
    Inv (CacheMutBase.deactivate CC s k).2 := by
  cases hx : alook s.active k with
  | none =>
    have hs : (CacheMutBase.deactivate CC s k).2 = s := by
      unfold CacheMutBase.deactivate
      rw [hx]
    rw [hs]
    refine ⟨hnda, hndl, hdisj, ?_, hae, hlu, hlen, hcap⟩
    intro p hp
    obtain ⟨pk, pe⟩ := p
    by_cases hpk : pk = k
    · exfalso
      subst hpk
      have h3 := keysND_alook_of_mem hnda hp
      rw [hx] at h3
      cases h3
    · exact hal (pk, pe) hp hpk
  | some item =>
    obtain ⟨hir, hiw⟩ := hku item hx
    have hlruk : alook s.lru k = none := hdisj k (by simp [hx])
    have hknotin : k ∉ s.lru.map Prod.fst := (alook_eq_none_iff _ _).mp hlruk
    obtain ⟨b, hs⟩ := deactivate_shape CC s k item hx
    rw [hs]
    have hndA : KeysND (aerase s.active k) := keysND_aerase hnda k
    have halA : ∀ p ∈ aerase s.active k, p.2.readers ≠ 0 ∨ p.2.writer = true :=
      fun p hp => hal p (mem_aerase hp).1 (mem_aerase hp).2
    have haeA : ∀ p ∈ aerase s.active k, p.2.writer = true → p.2.readers = 0 :=
      fun p hp => hae p (mem_aerase hp).1
    have hdisjA : ∀ k' : K, (alook (aerase s.active k) k').isSome →
        alook s.lru k' = none := by
      intro k' hk'
      by_cases h2 : k' = k
      · subst h2
        rw [alook_aerase_self] at hk'
        cases hk'
      · rw [alook_aerase_ne _ h2] at hk'
        exact hdisj k' hk'
    -- case split on the push
    unfold lruPush
    rw [hlruk]
    simp only []
    by_cases hfull : s.lru.length = s.cap
    · rw [if_pos hfull]
      cases hl : s.lru with
      | nil =>
        exfalso
        rw [hl] at hfull
        simp only [List.length_nil] at hfull
        omega
      | cons victim rest =>
        simp only []
        have hndl2 : KeysND (rest ++ [(k, item)]) := by
          refine keysND_concat (keysND_tail (hl ▸ hndl)) ?_ item
          intro hc
          apply hknotin
          rw [hl]
          exact List.mem_cons_of_mem _ hc
        refine ⟨hndA, hndl2, ?_, halA, haeA, ?_, ?_, hcap⟩
        · intro k' hk'
          have hkk : k' ≠ k := by
            intro h2
            subst h2
            rw [alook_aerase_self] at hk'
            cases hk'
          have h3 : alook s.lru k' = none := hdisjA k' hk'
          have h4 : alook rest k' = none := alook_none_tail (hl ▸ h3)
          rw [alook_append_of_none _ h4]
          simp [alook, hkk]
        · intro p hp
          rcases List.mem_append.mp hp with h2 | h2
          · exact hlu p (by rw [hl]; exact List.mem_cons_of_mem _ h2)
          · simp only [List.mem_singleton] at h2
            subst h2
            exact ⟨hir, hiw⟩
        · simp only [List.length_append, List.length_singleton]
          have : rest.length + 1 = s.cap := by
            rw [← hfull, hl]
            simp
          omega
    · rw [if_neg hfull]
      simp only []
      have hndl2 : KeysND (s.lru ++ [(k, item)]) :=
        keysND_concat hndl hknotin item
      refine ⟨hndA, hndl2, ?_, halA, haeA, ?_, ?_, hcap⟩
      · intro k' hk'
        have hkk : k' ≠ k := by
          intro h2
          subst h2
          rw [alook_aerase_self] at hk'
          cases hk'
        have h3 : alook s.lru k' = none := hdisjA k' hk'
        rw [alook_append_of_none _ h3]
        simp [alook, hkk]
      · intro p hp
        rcases List.mem_append.mp hp with h2 | h2
        · exact hlu p h2
        · simp only [List.mem_singleton] at h2
          subst h2
          exact ⟨hir, hiw⟩
      · simp only [List.length_append, List.length_singleton]
        omega

theorem is_locked_false_iff {V : Type} (e : Entry V) :
    e.is_locked = false ↔ e.readers = 0 ∧ e.writer = false := by
  simp [Entry.is_locked]

theorem drain_rest_suffix [DecidableEq K] (CC : CacheMutCompatible K V B E) :
    ∀ (l : List (K × Entry V)) (b : B),
      (CacheMutBase.drain CC l b).2.2 <:+ l := by
  intro l
  induction l with
  | nil =>
    intro b
    unfold CacheMutBase.drain
    cases CC.commit b with
    | mk r b' => exact List.nil_suffix
  | cons p rest ih =>
    intro b
    obtain ⟨k, e⟩ := p
    unfold CacheMutBase.drain
    by_cases hlk : e.is_locked
    · rw [if_pos hlk]
    · rw [if_neg hlk]
      cases hwb : CacheMutBase.writeBack CC b k e with
      | mk r b' =>
        cases r with
        | ok u => exact (ih b').trans (List.suffix_cons _ _)
        | error err => exact List.suffix_cons _ _

theorem inv_step [DecidableEq K] {CC : CacheMutCompatible K V B E}
    {s s' : CacheMutBase K V B} (hinv : Inv s) (hstep : Step CC s s') :
    Inv s' := by
  obtain ⟨hnda, hndl, hdisj, hal, hae, hlu, hlen, hcap⟩ := hinv
  cases hstep with
  | insert k v h =>
    unfold CacheMutBase.insert at h ⊢
    by_cases hact : (alook s.active k).isSome
    · rw [if_pos hact] at h
      simp at h
    · rw [if_neg hact] at h ⊢
      cases hlru : alook s.lru k with
      | some e =>
        refine ⟨hnda, ?_, ?_, hal, hae, ?_, ?_, hcap⟩
        · exact keysND_concat (keysND_aerase hndl k) (not_mem_keys_aerase _ _) _
        · intro k' hk'
          have hkk : k' ≠ k := by
            intro h2
            subst h2
            exact hact hk'
          rw [alook_append_of_none _ (by rw [alook_aerase_ne _ hkk]; exact hdisj k' hk')]
          simp [alook, hkk]
        · intro p hp
          rcases List.mem_append.mp hp with h2 | h2
          · exact hlu p (mem_aerase h2).1
          · simp only [List.mem_singleton] at h2
            subst h2
            exact ⟨rfl, rfl⟩
        · simp only [List.length_append, List.length_singleton]
          have := aerase_length_lt hlru
          omega
      | none =>
        cases CC.insert s.compatible k v with
        | mk r b =>
          exact inv_compat_irrel b ⟨hnda, hndl, hdisj, hal, hae, hlu, hlen, hcap⟩
  | remove k h =>
    unfold CacheMutBase.remove at h ⊢
    by_cases hact : (alook s.active k).isSome
    · rw [if_pos hact] at h
      simp at h
    · rw [if_neg hact] at h ⊢
      cases CC.remove s.compatible k with
      | mk r b =>
        refine ⟨hnda, keysND_aerase hndl k, ?_, hal, hae, ?_, ?_, hcap⟩
        · intro k' hk'
          by_cases hkk : k' = k
          · subst hkk
            exact alook_aerase_self _ _
          · rw [alook_aerase_ne _ hkk]
            exact hdisj k' hk'
        · exact fun p hp => hlu p (mem_aerase hp).1
        · exact le_trans (aerase_length_le _ _) hlen
  | get k r s' h =>
    unfold CacheMutBase.get at h
    cases hact : alook s.active k with
    | some e =>
      rw [hact] at h
      simp only [] at h
      by_cases hw : e.writer
      · rw [if_pos hw] at h
        cases h
      · rw [if_neg hw] at h
        simp only [Option.some.injEq, Prod.mk.injEq] at h
        obtain ⟨-, h2⟩ := h
        subst h2
        refine ⟨keysND_ains hnda k _, hndl, ?_, ?_, ?_, hlu, hlen, hcap⟩
        · intro k' hk'
          by_cases hkk : k' = k
          · subst hkk
            exact hdisj k' (by simp [hact])
          · rw [alook_ains_ne _ _ hkk] at hk'
            exact hdisj k' hk'
        · intro p hp
          rcases mem_ains hp with h2 | h2
          · subst h2
            simp
          · exact hal p h2
        · intro p hp
          rcases mem_ains hp with h2 | h2
          · subst h2
            intro hc
            simp only at hc
            rw [hc] at hw
            exact absurd rfl hw
          · exact hae p h2
    | none =>
      rw [hact] at h
      simp only [] at h
      cases hlru : alook s.lru k with
      | some e =>
        rw [hlru] at h
        simp only [] at h
        by_cases hw : e.writer
        · rw [if_pos hw] at h
          cases h
        · rw [if_neg hw] at h
          simp only [Option.some.injEq, Prod.mk.injEq] at h
          obtain ⟨-, h2⟩ := h
          subst h2
          refine ⟨keysND_ains hnda k _, keysND_aerase hndl k, ?_, ?_, ?_, ?_, ?_, hcap⟩
          · intro k' hk'
            by_cases hkk : k' = k
            · subst hkk
              exact alook_aerase_self _ _
            · rw [alook_ains_ne _ _ hkk] at hk'
              rw [alook_aerase_ne _ hkk]
              exact hdisj k' hk'
          · intro p hp
            rcases mem_ains hp with h2 | h2
            · subst h2
              simp
            · exact hal p h2
          · intro p hp
            rcases mem_ains hp with h2 | h2
            · subst h2
              intro hc
              simp only at hc
              rw [hc] at hw
              exact absurd rfl hw
            · exact hae p h2
          · exact fun p hp => hlu p (mem_aerase hp).1
          · exact le_trans (aerase_length_le _ _) hlen
      | none =>
        rw [hlru] at h
        simp only [] at h
        cases hget : CC.get s.compatible k with
        | mk rr b =>
          rw [hget] at h
          cases rr with
          | error err =>
            simp only [Option.some.injEq, Prod.mk.injEq] at h
            obtain ⟨-, h2⟩ := h
            subst h2
            exact inv_compat_irrel b ⟨hnda, hndl, hdisj, hal, hae, hlu, hlen, hcap⟩
          | ok v =>
            simp only [Option.some.injEq, Prod.mk.injEq] at h
            obtain ⟨-, h2⟩ := h
            subst h2
            refine ⟨keysND_ains hnda k _, hndl, ?_, ?_, ?_, hlu, hlen, hcap⟩
            · intro k' hk'
              by_cases hkk : k' = k
              · subst hkk
                exact hlru
              · rw [alook_ains_ne _ _ hkk] at hk'
                exact hdisj k' hk'
            · intro p hp
              rcases mem_ains hp with h2 | h2
              · subst h2
                simp
              · exact hal p h2
            · intro p hp
              rcases mem_ains hp with h2 | h2
              · subst h2
                intro hc
                cases hc
              · exact hae p h2
  | get_mut k r s' h hp =>
    unfold CacheMutBase.get_mut at h
    cases hact : alook s.active k with
    | some e =>
      rw [hact] at h
      simp only [] at h
      simp only [Option.some.injEq, Prod.mk.injEq] at h
      obtain ⟨h2, -⟩ := h
      exact absurd h2.symm hp
    | none =>
      rw [hact] at h
      simp only [] at h
      cases hlru : alook s.lru k with
      | some e =>
        rw [hlru] at h
        simp only [] at h
        by_cases hw : (e.writer || decide (e.readers ≠ 0)) = true
        · rw [if_pos hw] at h
          cases h
        · rw [if_neg hw] at h
          simp only [Option.some.injEq, Prod.mk.injEq] at h
          obtain ⟨-, h2⟩ := h
          subst h2
          simp only [Bool.or_eq_true, decide_eq_true_eq, not_or] at hw
          refine ⟨keysND_ains hnda k _, keysND_aerase hndl k, ?_, ?_, ?_, ?_, ?_, hcap⟩
          · intro k' hk'
            by_cases hkk : k' = k
            · subst hkk
              exact alook_aerase_self _ _
            · rw [alook_ains_ne _ _ hkk] at hk'
              rw [alook_aerase_ne _ hkk]
              exact hdisj k' hk'
          · intro p hp2
            rcases mem_ains hp2 with h2 | h2
            · subst h2
              simp
            · exact hal p h2
          · intro p hp2
            rcases mem_ains hp2 with h2 | h2
            · subst h2
              intro _
              simpa using hw.2
            · exact hae p h2
          · exact fun p hp2 => hlu p (mem_aerase hp2).1
          · exact le_trans (aerase_length_le _ _) hlen
      | none =>
        rw [hlru] at h
        simp only [] at h
        cases hget : CC.get s.compatible k with
        | mk rr b =>
          rw [hget] at h
          cases rr with
          | error err =>
            simp only [Option.some.injEq, Prod.mk.injEq] at h
            obtain ⟨-, h2⟩ := h
            subst h2
            exact inv_compat_irrel b ⟨hnda, hndl, hdisj, hal, hae, hlu, hlen, hcap⟩
          | ok v =>
            simp only [Option.some.injEq, Prod.mk.injEq] at h
            obtain ⟨-, h2⟩ := h
            subst h2
            refine ⟨keysND_ains hnda k _, hndl, ?_, ?_, ?_, hlu, hlen, hcap⟩
            · intro k' hk'
              by_cases hkk : k' = k
              · subst hkk
                exact hlru
              · rw [alook_ains_ne _ _ hkk] at hk'
                exact hdisj k' hk'
            · intro p hp2
              rcases mem_ains hp2 with h2 | h2
              · subst h2
                simp
              · exact hal p h2
            · intro p hp2
              rcases mem_ains hp2 with h2 | h2
              · subst h2
                intro _
                rfl
              · exact hae p h2
  | commit h =>
    unfold CacheMutBase.commit at h ⊢
    by_cases hact : s.active.length ≠ 0
    · rw [if_pos hact] at h
      simp at h
    · rw [if_neg hact] at h ⊢
      have hanil : s.active = [] := List.length_eq_zero.mp (by omega)
      cases hdr : CacheMutBase.drain CC s.lru s.compatible with
      | mk r rest2 =>
        obtain ⟨b, rest⟩ := rest2
        have hsuf : rest <:+ s.lru := by
          have := drain_rest_suffix CC s.lru s.compatible
          rw [hdr] at this
          exact this
        refine ⟨hnda, ?_, ?_, hal, hae, ?_, ?_, hcap⟩
        · exact List.Nodup.sublist (hsuf.sublist.map Prod.fst) hndl
        · intro k' hk'
          rw [hanil] at hk'
          simp [alook] at hk'
        · exact fun p hp2 => hlu p (hsuf.sublist.subset hp2)
        · exact le_trans hsuf.length_le hlen
  | releaseShared k e he hr hw =>
    unfold CacheMutBase.releaseShared
    rw [he]
    simp only []
    by_cases hlk : ({ e with readers := e.readers - 1 } : Entry V).is_locked
    · rw [if_pos hlk]
      refine ⟨keysND_ains hnda k _, hndl, ?_, ?_, ?_, hlu, hlen, hcap⟩
      · intro k' hk'
        by_cases hkk : k' = k
        · subst hkk
          exact hdisj k' (by simp [he])
        · rw [alook_ains_ne _ _ hkk] at hk'
          exact hdisj k' hk'
      · intro p hp2
        rcases mem_ains hp2 with h2 | h2
        · subst h2
          simp only [Entry.is_locked, Bool.or_eq_true, decide_eq_true_eq] at hlk
          rcases hlk with h3 | h3
          · exact Or.inl h3
          · exact Or.inr h3
        · exact hal p h2
      · intro p hp2
        rcases mem_ains hp2 with h2 | h2
        · subst h2
          intro hc
          simp only at hc
          rw [hc] at hw
          cases hw
        · exact hae p h2
    · rw [if_neg hlk]
      simp only []
      apply inv_deactivate
      · exact keysND_ains hnda k _
      · exact hndl
      · intro k' hk'
        by_cases hkk : k' = k
        · subst hkk
          exact hdisj k' (by simp [he])
        · rw [alook_ains_ne _ _ hkk] at hk'
          exact hdisj k' hk'
      · intro p hp2 hpk
        rcases mem_ains hp2 with h2 | h2
        · exfalso
          apply hpk
          rw [h2]
        · exact hal p h2
      · intro p hp2
        rcases mem_ains hp2 with h2 | h2
        · subst h2
          intro hc
          simp only at hc
          rw [hc] at hw
          cases hw
        · exact hae p h2
      · exact hlu
      · intro e2 he2
        rw [alook_ains_self] at he2
        cases he2
        exact (is_locked_false_iff _).mp (Bool.eq_false_iff.mpr hlk)
      · exact hlen
      · exact hcap
  | releaseExcl k v e he hw =>
    unfold CacheMutBase.releaseExcl
    rw [he]
    simp only []
    by_cases hlk : ({ e with writer := false, val := v } : Entry V).is_locked
    · rw [if_pos hlk]
      refine ⟨keysND_ains hnda k _, hndl, ?_, ?_, ?_, hlu, hlen, hcap⟩
      · intro k' hk'
        by_cases hkk : k' = k
        · subst hkk
          exact hdisj k' (by simp [he])
        · rw [alook_ains_ne _ _ hkk] at hk'
          exact hdisj k' hk'
      · intro p hp2
        rcases mem_ains hp2 with h2 | h2
        · subst h2
          simp only [Entry.is_locked, Bool.or_eq_true, decide_eq_true_eq] at hlk
          rcases hlk with h3 | h3
          · exact Or.inl h3
          · simp at h3
        · exact hal p h2
      · intro p hp2
        rcases mem_ains hp2 with h2 | h2
        · subst h2
          intro hc
          cases hc
        · exact hae p h2
    · rw [if_neg hlk]
      simp only []
      apply inv_deactivate
      · exact keysND_ains hnda k _
      · exact hndl
      · intro k' hk'
        by_cases hkk : k' = k
        · subst hkk
          exact hdisj k' (by simp [he])
        · rw [alook_ains_ne _ _ hkk] at hk'
          exact hdisj k' hk'
      · intro p hp2 hpk
        rcases mem_ains hp2 with h2 | h2
        · exfalso
          apply hpk
          rw [h2]
        · exact hal p h2
      · intro p hp2
        rcases mem_ains hp2 with h2 | h2
        · subst h2
          intro hc
          cases hc
        · exact hae p h2
      · exact hlu
      · intro e2 he2
        rw [alook_ains_self] at he2
        cases he2
        exact (is_locked_false_iff _).mp (Bool.eq_false_iff.mpr hlk)
      · exact hlen
      · exact hcap

/-- The invariant holds in every state reachable from a freshly
constructed cache. -/
theorem inv_reach [DecidableEq K] {CC : CacheMutCompatible K V B E}
    {b : B} {cap : Nat} {s0 s : CacheMutBase K V B}
    (hnew : CacheMutBase.new b cap = some s0) (hreach : Reach CC s0 s) :
    Inv s := by
  have h0 : Inv s0 := by
    unfold CacheMutBase.new at hnew
    by_cases hc : cap = 0
    · rw [if_pos hc] at hnew
      cases hnew
    · rw [if_neg hc] at hnew
      simp only [Option.some.injEq] at hnew
      subst hnew
      refine ⟨keysND_nil, keysND_nil, ?_, ?_, ?_, ?_, ?_, ?_⟩
      · intro k' hk'
        simp [alook] at hk'
      · intro p hp2
        simp at hp2
      · intro p hp2
        simp at hp2
      · intro p hp2
        simp at hp2
      · simp
      · exact Nat.one_le_iff_ne_zero.mpr hc
  induction hreach with
  | refl => exact h0
  | tail hr hstep ih => exact inv_step ih hstep

theorem drain_eq_specDrain [DecidableEq K] (CC : CacheMutCompatible K V B E)
    (l : List (K × Entry V))
    (hu : ∀ p ∈ l, p.2.readers = 0 ∧ p.2.writer = false) (b : B) :
    (CacheMutBase.drain CC l b).1 = (specDrain CC l b).1 ∧
    (CacheMutBase.drain CC l b).2.1 = (specDrain CC l b).2 := by
  induction l generalizing b with
  | nil =>
    unfold CacheMutBase.drain specDrain
    cases CC.commit b with
    | mk r b' => exact ⟨rfl, rfl⟩
  | cons p rest ih =>
    obtain ⟨k, e⟩ := p
    have huh : e.readers = 0 ∧ e.writer = false := hu (k, e) (List.mem_cons_self _ _)
    have hlk : e.is_locked = false := (is_locked_false_iff e).mpr huh
    unfold CacheMutBase.drain specDrain
    rw [if_neg (by rw [hlk]; exact Bool.false_ne_true)]
    have hwb : CacheMutBase.writeBack CC b k e = specWriteBack CC b k e := rfl
    rw [hwb]
    cases hr : specWriteBack CC b k e with
    | mk r b' =>
      cases r with
      | ok u => exact ih (fun p hp => hu p (List.mem_cons_of_mem _ hp)) b'
      | error err => exact ⟨rfl, rfl⟩

theorem deactivate_overflow [DecidableEq K] (CC : CacheMutCompatible K V B E)
    (s : CacheMutBase K V B) (k : K) (e : Entry V)
    (he : alook s.active k = some e) (hfull : s.lru.length = s.cap)
    (hnk : alook s.lru k = none) (hcap : 1 ≤ s.cap) :
    ∃ victim rest, s.lru = victim :: rest ∧
      ((victim.2.readers = 0 ∧ victim.2.writer = false) →
        (CacheMutBase.deactivate CC s k).1 =
          Res.ofExcept (specWriteBack CC s.compatible victim.1 victim.2).1 ∧
        (CacheMutBase.deactivate CC s k).2.compatible =
          (specWriteBack CC s.compatible victim.1 victim.2).2 ∧
        (CacheMutBase.deactivate CC s k).2.lru = rest ++ [(k, e)] ∧
        (CacheMutBase.deactivate CC s k).2.active = aerase s.active k) := by
  obtain ⟨cb, lru, cap2, active⟩ := s
  simp only [] at he hfull hnk hcap ⊢
  cases lru with
  | nil =>
    exfalso
    simp only [List.length_nil] at hfull
    omega
  | cons victim rest =>
    refine ⟨victim, rest, rfl, ?_⟩
    intro huv
    obtain ⟨vk, ve⟩ := victim
    have hlkv : ve.is_locked = false := (is_locked_false_iff ve).mpr huv
    unfold CacheMutBase.deactivate
    rw [he]
    simp only []
    unfold lruPush
    rw [hnk]
    simp only []
    rw [if_pos hfull]
    simp only []
    rw [if_neg (by rw [hlkv]; exact Bool.false_ne_true)]
    have hwb : CacheMutBase.writeBack CC cb vk ve = specWriteBack CC cb vk ve := rfl
    rw [hwb]
    cases specWriteBack CC cb vk ve with
    | mk r b' => exact ⟨rfl, rfl, rfl, rfl⟩

/-- C1: for a key with several shared handles outstanding, dropping any
handle other than the last leaves the key in the active set, and once
every handle issued has been released (no entry carries an outstanding
borrow), num_active() = 0. -/
theorem c1_shared_handles [DecidableEq K] {CC : CacheMutCompatible K V B E}
    {b : B} {cap : Nat} {s0 s : CacheMutBase K V B}
    (hnew : CacheMutBase.new b cap = some s0) (hreach : Reach CC s0 s) :
    (∀ (k : K) (e : Entry V), alook s.active k = some e → 2 ≤ e.readers →
      (alook (CacheMutBase.releaseShared CC s k).2.active k).isSome) ∧
    ((∀ p ∈ s.active, p.2.readers = 0 ∧ p.2.writer = false) →
      CacheMutBase.num_active s = 0) := by
  constructor
  · intro k e he hr
    unfold CacheMutBase.releaseShared
    rw [he]
    simp only []
    have hlk : ({ e with readers := e.readers - 1 } : Entry V).is_locked = true := by
      simp only [Entry.is_locked, Bool.or_eq_true, decide_eq_true_eq]
      left
      omega
    rw [if_pos hlk]
    simp [alook_ains_self]
  · intro hall
    have hinv := inv_reach hnew hreach
    unfold CacheMutBase.num_active
    cases hacts : s.active with
    | nil => simp [hacts]
    | cons p t =>
      exfalso
      have hp : p ∈ s.active := by
        rw [hacts]
        exact List.mem_cons_self _ _
      have h1 := hinv.act_locked p hp
      have h2 := hall p hp
      rcases h1 with h1 | h1
      · exact h1 h2.1
      · rw [h2.2] at h1
        cases h1

/-- C2: whenever the cache relinquishes an entry, the backend receives
insert(k,v) if dirty and replace(k,v) otherwise, both for the
LRU-overflow victim of deactivate and for every entry drained by commit;
commit requires the active set to be empty (panics otherwise), drains the
LRU from oldest to newest and finally calls the backend commit, exactly
as the spec-side specDrain / specWriteBack prescribe. -/
theorem c2_writeback_commit [DecidableEq K] (CC : CacheMutCompatible K V B E)
    (s : CacheMutBase K V B)
    (hlru : ∀ p ∈ s.lru, p.2.readers = 0 ∧ p.2.writer = false) :
    ((s.active ≠ [] → (CacheMutBase.commit CC s).1 = .panic) ∧
     (s.active = [] →
       (CacheMutBase.commit CC s).1 = (specDrain CC s.lru s.compatible).1 ∧
       (CacheMutBase.commit CC s).2.compatible =
         (specDrain CC s.lru s.compatible).2)) ∧
    (∀ (k : K) (e : Entry V), alook s.active k = some e →
      s.lru.length = s.cap → alook s.lru k = none → 1 ≤ s.cap →
      ∃ victim rest, s.lru = victim :: rest ∧
        (CacheMutBase.deactivate CC s k).1 =
          Res.ofExcept (specWriteBack CC s.compatible victim.1 victim.2).1 ∧
        (CacheMutBase.deactivate CC s k).2.compatible =
          (specWriteBack CC s.compatible victim.1 victim.2).2 ∧
        (CacheMutBase.deactivate CC s k).2.lru = rest ++ [(k, e)] ∧
        (CacheMutBase.deactivate CC s k).2.active = aerase s.active k) := by
  refine ⟨⟨?_, ?_⟩, ?_⟩
  · intro hne
    unfold CacheMutBase.commit
    rw [if_pos (by simpa using fun h => hne (List.length_eq_zero.mp h))]
  · intro hnil
    unfold CacheMutBase.commit
    rw [if_neg (by simp [hnil])]
    have hds := drain_eq_specDrain CC s.lru hlru s.compatible
    cases hdr : CacheMutBase.drain CC s.lru s.compatible with
    | mk r rb =>
      obtain ⟨b2, rest⟩ := rb
      rw [hdr] at hds
      exact ⟨hds.1, hds.2⟩
  · intro k e he hfull hnk hcap
    obtain ⟨victim, rest, hl, himp⟩ := deactivate_overflow CC s k e he hfull hnk hcap
    refine ⟨victim, rest, hl, himp (hlru victim ?_)⟩
    rw [hl]
    exact List.mem_cons_self _ _

/-- C5: at every observable point (any state reachable from a freshly
constructed cache by operations and handle drops), no key is present in
both the active map and the LRU list. -/
theorem c5_partition [DecidableEq K] {CC : CacheMutCompatible K V B E}
    {b : B} {cap : Nat} {s0 s : CacheMutBase K V B}
    (hnew : CacheMutBase.new b cap = some s0) (hreach : Reach CC s0 s) :
    ∀ k : K, ¬((alook s.active k).isSome ∧ (alook s.lru k).isSome) := by
  intro k hc
  have hinv := inv_reach hnew hreach
  have h2 := hinv.disj k hc.1
  rw [h2] at hc
  simp at hc

/-- C8: each of the four contract violations aborts with a panic rather
than returning a recoverable error: insert on an active key, remove on an
active key, get_mut on an active key, commit with any entry active. -/
theorem c8_contract_violations_panic [DecidableEq K]
    (CC : CacheMutCompatible K V B E) (s : CacheMutBase K V B) (k : K) (v : V) :
    ((alook s.active k).isSome → (CacheMutBase.insert CC s k v).1 = .panic) ∧
    ((alook s.active k).isSome → (CacheMutBase.remove CC s k).1 = .panic) ∧
    ((alook s.active k).isSome →
      CacheMutBase.get_mut CC s k = some (.panic, s)) ∧
    (s.active ≠ [] → (CacheMutBase.commit CC s).1 = .panic) := by
  refine ⟨?_, ?_, ?_, ?_⟩
  · intro h
    unfold CacheMutBase.insert
    rw [if_pos h]
  · intro h
    unfold CacheMutBase.remove
    rw [if_pos h]
  · intro h
    unfold CacheMutBase.get_mut
    cases hx : alook s.active k with
    | none => rw [hx] at h; cases h
    | some e => rfl
  · intro h
    unfold CacheMutBase.commit
    rw [if_pos (by simpa using fun h2 => h (List.length_eq_zero.mp h2))]

/-- C10: constructing a cache with capacity 0 is a fatal error
(NonZero::new(0).unwrap() panics, modelled as none), and construction
succeeds for every capacity at least 1, yielding empty active and LRU. -/
theorem c10_new_capacity (b : B) :
    CacheMutBase.new (K := K) (V := V) b 0 = none ∧
    (∀ c : Nat, 1 ≤ c →
      CacheMutBase.new (K := K) (V := V) b c = some ⟨b, [], c, []⟩) := by
  constructor
  · unfold CacheMutBase.new
    rw [if_pos rfl]
  · intro c hc
    unfold CacheMutBase.new
    rw [if_neg (by omega)]

theorem c1_witness :
    (∀ (k : Nat) (e : Entry Nat), alook wS0.active k = some e →
      2 ≤ e.readers →
      (alook (CacheMutBase.releaseShared (hashmapCompatible Nat Nat) wS0 k).2.active
          k).isSome) ∧
    ((∀ p ∈ wS0.active, p.2.readers = 0 ∧ p.2.writer = false) →
      CacheMutBase.num_active wS0 = 0) :=
  @c1_shared_handles Nat Nat (List (Nat × Nat)) NotInMap _
    (hashmapCompatible Nat Nat) wBack 2 wS0 wS0 rfl Relation.ReflTransGen.refl

theorem c2_witness :
    ((CacheMutBase.commit (hashmapCompatible Nat Nat) wS2).1 =
        (specDrain (hashmapCompatible Nat Nat) wS2.lru wS2.compatible).1 ∧
      (CacheMutBase.commit (hashmapCompatible Nat Nat) wS2).2.compatible =
        (specDrain (hashmapCompatible Nat Nat) wS2.lru wS2.compatible).2) ∧
    (∃ victim rest, wS3.lru = victim :: rest ∧
      (CacheMutBase.deactivate (hashmapCompatible Nat Nat) wS3 1).1 =
        Res.ofExcept
          (specWriteBack (hashmapCompatible Nat Nat) wS3.compatible victim.1
              victim.2).1 ∧
      (CacheMutBase.deactivate (hashmapCompatible Nat Nat) wS3 1).2.compatible =
        (specWriteBack (hashmapCompatible Nat Nat) wS3.compatible victim.1
            victim.2).2 ∧
      (CacheMutBase.deactivate (hashmapCompatible Nat Nat) wS3 1).2.lru =
        rest ++ [(1, ⟨false, 1, false, 9⟩)] ∧
      (CacheMutBase.deactivate (hashmapCompatible Nat Nat) wS3 1).2.active =
        aerase wS3.active 1) :=
  ⟨(c2_writeback_commit (hashmapCompatible Nat Nat) wS2 (by decide)).1.2 rfl,
    (c2_writeback_commit (hashmapCompatible Nat Nat) wS3 (by decide)).2 1
      ⟨false, 1, false, 9⟩ (by decide) (by decide) (by decide) (by decide)⟩

theorem c5_witness :
    ¬((alook wS0.active 7).isSome ∧ (alook wS0.lru 7).isSome) :=
  @c5_partition Nat Nat (List (Nat × Nat)) NotInMap _
    (hashmapCompatible Nat Nat) wBack 2 wS0 wS0 rfl Relation.ReflTransGen.refl
    7

theorem c8_witness :
    (CacheMutBase.insert (hashmapCompatible Nat Nat) wS3 1 0).1 = .panic ∧
    (CacheMutBase.remove (hashmapCompatible Nat Nat) wS3 1).1 = .panic ∧
    CacheMutBase.get_mut (hashmapCompatible Nat Nat) wS3 1 =
      some (.panic, wS3) ∧
    (CacheMutBase.commit (hashmapCompatible Nat Nat) wS3).1 = .panic := by
  have h := c8_contract_violations_panic (hashmapCompatible Nat Nat) wS3 1 0
  exact ⟨h.1 (by decide), h.2.1 (by decide), h.2.2.1 (by decide),
    h.2.2.2 (by decide)⟩

theorem c10_witness :
    CacheMutBase.new (K := Nat) (V := Nat) wBack 0 = none ∧
    CacheMutBase.new (K := Nat) (V := Nat) wBack 3 = some ⟨wBack, [], 3, []⟩ :=
  ⟨(c10_new_capacity wBack).1, (c10_new_capacity wBack).2 3 (by decide)⟩

/-! The folder backend (src/folder_compatible.rs).

Files are byte arrays on disk; the embedding keeps, for every bucket
file, the list of its live slots (the first num_items slots), each slot
holding the serialized key and value bytes of its record (the fixed-size
slot padding beyond the record is never read by the code and is dropped).
The at-most-one-open-file handle cache (CacheLevel2.open) and the folder
path only affect which OS handle is used, never the stored data, and are
omitted.  rmp_serde is the external codec: an encode function and a
decode partial inverse. -/

theorem lookupLevel1_eq_some {files : List CacheLevel1} {sz : Nat}
    {b : CacheLevel1} (h : lookupLevel1 files sz = some b) :
    b ∈ files ∧ b.size_per_item = sz := by
  induction files with
  | nil => simp [lookupLevel1] at h
  | cons a rest ih =>
    unfold lookupLevel1 at h
    by_cases h2 : a.size_per_item = sz
    · rw [if_pos h2] at h
      cases h
      exact ⟨List.mem_cons_self _ _, h2⟩
    · rw [if_neg h2] at h
      obtain ⟨h3, h4⟩ := ih h
      exact ⟨List.mem_cons_of_mem _ h3, h4⟩

theorem lookupLevel1_isSome_of_mem {files : List CacheLevel1}
    {b : CacheLevel1} (h : b ∈ files) :
    (lookupLevel1 files b.size_per_item).isSome := by
  induction files with
  | nil => simp at h
  | cons a rest ih =>
    simp only [lookupLevel1]
    by_cases h2 : a.size_per_item = b.size_per_item
    · rw [if_pos h2]
      rfl
    · rw [if_neg h2]
      rcases List.mem_cons.mp h with h3 | h3
      · exact absurd (congrArg CacheLevel1.size_per_item h3.symm) h2
      · exact ih h3

theorem mem_updateLevel1 {files : List CacheLevel1} {sz : Nat}
    {b' c : CacheLevel1} (h : c ∈ updateLevel1 files sz b') :
    c = b' ∨ (c ∈ files ∧ c.size_per_item ≠ sz) := by
  induction files with
  | nil => simp [updateLevel1] at h
  | cons a rest ih =>
    simp only [updateLevel1] at h
    by_cases h2 : a.size_per_item = sz
    · rw [if_pos h2] at h
      rcases List.mem_cons.mp h with h3 | h3
      · exact Or.inl h3
      · rcases ih h3 with h4 | h4
        · exact Or.inl h4
        · exact Or.inr ⟨List.mem_cons_of_mem _ h4.1, h4.2⟩
    · rw [if_neg h2] at h
      rcases List.mem_cons.mp h with h3 | h3
      · subst h3
        exact Or.inr ⟨List.mem_cons_self _ _, h2⟩
      · rcases ih h3 with h4 | h4
        · exact Or.inl h4
        · exact Or.inr ⟨List.mem_cons_of_mem _ h4.1, h4.2⟩

theorem sizes_updateLevel1 {files : List CacheLevel1} {sz : Nat}
    {b' : CacheLevel1} (hb' : b'.size_per_item = sz) :
    (updateLevel1 files sz b').map CacheLevel1.size_per_item =
      files.map CacheLevel1.size_per_item := by
  induction files with
  | nil => rfl
  | cons a rest ih =>
    simp only [updateLevel1]
    by_cases h2 : a.size_per_item = sz
    · rw [if_pos h2]
      simp only [List.map_cons, ih, hb', h2]
    · rw [if_neg h2]
      simp only [List.map_cons, ih]

theorem lookupLevel1_updateLevel1_self {files : List CacheLevel1} {sz : Nat}
    {b' : CacheLevel1} (hb' : b'.size_per_item = sz)
    (hfound : (lookupLevel1 files sz).isSome) :
    lookupLevel1 (updateLevel1 files sz b') sz = some b' := by
  induction files with
  | nil => simp [lookupLevel1] at hfound
  | cons a rest ih =>
    simp only [lookupLevel1] at hfound
    simp only [updateLevel1]
    by_cases h2 : a.size_per_item = sz
    · rw [if_pos h2]
      simp [lookupLevel1, hb']
    · rw [if_neg h2] at hfound
      rw [if_neg h2]
      simp only [lookupLevel1]
      rw [if_neg h2]
      exact ih hfound

theorem lookupLevel1_updateLevel1_ne {files : List CacheLevel1} {sz sz' : Nat}
    {b' : CacheLevel1} (hb' : b'.size_per_item = sz) (hne : sz' ≠ sz) :
    lookupLevel1 (updateLevel1 files sz b') sz' = lookupLevel1 files sz' := by
  induction files with
  | nil => rfl
  | cons a rest ih =>
    simp only [updateLevel1]
    by_cases h2 : a.size_per_item = sz
    · rw [if_pos h2]
      simp only [lookupLevel1]
      rw [if_neg (by rw [hb']; exact fun h => hne h.symm)]
      rw [if_neg (by rw [h2]; exact fun h => hne h.symm)]
      exact ih
    · rw [if_neg h2]
      simp only [lookupLevel1]
      by_cases h3 : a.size_per_item = sz'
      · rw [if_pos h3, if_pos h3]
      · rw [if_neg h3, if_neg h3]
        exact ih

theorem mem_insertSorted {files : List CacheLevel1} {nb c : CacheLevel1} :
    c ∈ insertSorted files nb ↔ c = nb ∨ c ∈ files := by
  induction files with
  | nil => simp [insertSorted]
  | cons a rest ih =>
    unfold insertSorted
    by_cases h2 : nb.size_per_item ≤ a.size_per_item
    · rw [if_pos h2]
      simp only [List.mem_cons]
    · rw [if_neg h2]
      simp only [List.mem_cons, ih]
      tauto

theorem sizes_insertSorted_perm (files : List CacheLevel1)
    (nb : CacheLevel1) :
    ((insertSorted files nb).map CacheLevel1.size_per_item).Perm
      (nb.size_per_item :: files.map CacheLevel1.size_per_item) := by
  induction files with
  | nil => simp [insertSorted]
  | cons a rest ih =>
    unfold insertSorted
    by_cases h2 : nb.size_per_item ≤ a.size_per_item
    · rw [if_pos h2]
      simp
    · rw [if_neg h2]
      simp only [List.map_cons]
      exact (ih.cons _).trans (List.Perm.swap _ _ _)

theorem lookup_insertSorted_self {files : List CacheLevel1}
    {nb : CacheLevel1}
    (hnotin : nb.size_per_item ∉ files.map CacheLevel1.size_per_item) :
    lookupLevel1 (insertSorted files nb) nb.size_per_item = some nb := by
  induction files with
  | nil =>
    simp [insertSorted, lookupLevel1]
  | cons a rest ih =>
    simp only [List.map_cons, List.mem_cons, not_or] at hnotin
    simp only [insertSorted]
    by_cases h2 : nb.size_per_item ≤ a.size_per_item
    · rw [if_pos h2]
      simp [lookupLevel1]
    · rw [if_neg h2]
      simp only [lookupLevel1]
      rw [if_neg (fun h => hnotin.1 h.symm)]
      exact ih hnotin.2

theorem lookup_insertSorted_ne {files : List CacheLevel1} {nb : CacheLevel1}
    {sz : Nat} (hne : sz ≠ nb.size_per_item) :
    lookupLevel1 (insertSorted files nb) sz = lookupLevel1 files sz := by
  induction files with
  | nil =>
    simp only [insertSorted, lookupLevel1]
    rw [if_neg (fun h => hne h.symm)]
  | cons a rest ih =>
    simp only [insertSorted]
    by_cases h2 : nb.size_per_item ≤ a.size_per_item
    · rw [if_pos h2]
      simp only [lookupLevel1]
      rw [if_neg (fun h => hne h.symm)]
    · rw [if_neg h2]
      simp only [lookupLevel1]
      by_cases h3 : a.size_per_item = sz
      · rw [if_pos h3, if_pos h3]
      · rw [if_neg h3, if_neg h3]
        exact ih

theorem mask_testBit_true {i b : Nat} (hib : i ≤ b) (hb : b < 64) :
    (2 ^ 64 - 2 ^ i).testBit b = true := by
  rw [Nat.testBit_to_div_mod]
  have hIP : 2 ^ i ≤ 2 ^ b := Nat.pow_le_pow_right (by omega) hib
  have hI1 : 0 < 2 ^ i := Nat.two_pow_pos i
  have hQ1 : 0 < 2 ^ (64 - b) := Nat.two_pow_pos _
  have hM : 2 ^ (64 - b) * 2 ^ b = 2 ^ 64 := by
    rw [← pow_add]
    congr 1
    omega
  have hP64 : 2 ^ b ≤ 2 ^ 64 := Nat.pow_le_pow_right (by omega) (by omega)
  have h1 : (2 ^ 64 - 2 ^ i) / 2 ^ b = 2 ^ (64 - b) - 1 := by
    apply Nat.div_eq_of_lt_le
    · rw [Nat.sub_mul, one_mul, hM]
      omega
    · rw [Nat.sub_add_cancel hQ1, hM]
      omega
  rw [h1]
  have h63 : 64 - b = (63 - b) + 1 := by omega
  have hQ2 : 2 ^ (64 - b) = 2 ^ (63 - b) * 2 := by rw [h63, pow_succ]
  have hQ3 : 0 < 2 ^ (63 - b) := Nat.two_pow_pos _
  simp only [decide_eq_true_eq]
  omega

theorem testBit_true_of_sandwich {x b : Nat} (h1 : 2 ^ b ≤ x)
    (h2 : x < 2 ^ (b + 1)) : x.testBit b = true := by
  rw [Nat.testBit_to_div_mod]
  have h3 : x / 2 ^ b = 1 := by
    apply Nat.div_eq_of_lt_le
    · simpa using h1
    · rw [pow_succ] at h2
      omega
  rw [h3]
  rfl

theorem mask_land_zero {x i : Nat} (hi : i ≤ 64) (hx : x < 2 ^ i) :
    (2 ^ 64 - 2 ^ i) &&& x = 0 := by
  apply Nat.eq_of_testBit_eq
  intro j
  rw [Nat.testBit_land, Nat.zero_testBit]
  by_cases hj : j < i
  · have hmask : (2 ^ 64 - 2 ^ i).testBit j = false := by
      rw [Nat.testBit_to_div_mod]
      have hd : (2 ^ 64 - 2 ^ i) / 2 ^ j = 2 ^ (64 - j) - 2 ^ (i - j) := by
        have he : (2 ^ (64 - j) - 2 ^ (i - j)) * 2 ^ j = 2 ^ 64 - 2 ^ i := by
          rw [Nat.sub_mul, ← pow_add, ← pow_add]
          congr 2 <;> omega
        rw [← he, Nat.mul_div_cancel _ (Nat.two_pow_pos j)]
      rw [hd]
      have h64j : 64 - j = (63 - j) + 1 := by omega
      have hij : i - j = (i - j - 1) + 1 := by omega
      have e1 : 2 ^ (64 - j) = 2 ^ (63 - j) * 2 := by rw [h64j, pow_succ]
      have e2 : 2 ^ (i - j) = 2 ^ (i - j - 1) * 2 := by
        nth_rewrite 1 [hij]
        rw [pow_succ]
      simp only [decide_eq_false_iff_not]
      omega
    rw [hmask]
    rfl
  · have hxj : x.testBit j = false := by
      rw [Nat.testBit_to_div_mod]
      have h4 : x / 2 ^ j = 0 :=
        Nat.div_eq_of_lt (lt_of_lt_of_le hx (Nat.pow_le_pow_right (by omega) (by omega)))
      rw [h4]
      rfl
    rw [hxj]
    exact Bool.and_false _

theorem fbGo_spec {x b : Nat} (hb : b + 1 < 64) (hx1 : 2 ^ b ≤ x)
    (hx2 : x < 2 ^ (b + 1)) :
    ∀ fuel i, i ≤ b + 1 → b + 2 ≤ i + fuel → fbGo x i fuel = b + 1 := by
  intro fuel
  induction fuel with
  | zero =>
    intro i h1 h2
    omega
  | succ n ih =>
    intro i h1 h2
    unfold fbGo
    by_cases hcase : i = b + 1
    · subst hcase
      rw [if_pos (mask_land_zero (by omega) hx2)]
    · have hib : i ≤ b := by omega
      have hne : ¬((2 ^ 64 - 2 ^ i) &&& x = 0) := by
        intro hc
        have ht : ((2 ^ 64 - 2 ^ i) &&& x).testBit b = true := by
          rw [Nat.testBit_land, mask_testBit_true hib (by omega),
            testBit_true_of_sandwich hx1 hx2]
          rfl
        rw [hc, Nat.zero_testBit] at ht
        cases ht
      rw [if_neg hne]
      exact ih (i + 1) (by omega) (by omega)

theorem foremost_bit_eq {x b : Nat} (hb : b + 1 < 64) (hx1 : 2 ^ b ≤ x)
    (hx2 : x < 2 ^ (b + 1)) : foremost_bit x = b + 1 :=
  fbGo_spec hb hx1 hx2 64 0 (by omega) (by omega)

/-- C4 (counterexample to the claim as stated): for framed length L = 18
the chosen bucket is 64, yet 32 is already a power of two strictly
greater than 18, so the chosen bucket is not the smallest such power. -/
theorem c4_counterexample :
    bucket_size 18 = 64 ∧ (2 : Nat) ^ 5 = 32 ∧ 18 < 32 ∧ 32 < 64 := by
  refine ⟨?_, by norm_num, by norm_num, by norm_num⟩
  have h := foremost_bit_eq (x := 18) (b := 4) (by norm_num) (by norm_num)
    (by norm_num)
  unfold bucket_size
  rw [h]
  rfl

/-- C4 (amended): for a record of framed length L (16 ≤ L < 2^62, so the
u64 shifts cannot overflow), with b the position of the most significant
set bit of L (2^b ≤ L < 2^(b+1)), the bucket chosen by add and overwrite
is 1 << (b+2) = 2^(⌊log2 L⌋ + 2), a power of two strictly greater than L
(twice the smallest power of two strictly greater than L, not that
smallest power itself). -/
theorem c4_bucket_rule (L b : Nat) (hL : 16 ≤ L) (hhi : L < 2 ^ 62)
    (hb1 : 2 ^ b ≤ L) (hb2 : L < 2 ^ (b + 1)) :
    bucket_size L = 2 ^ (b + 2) ∧ b = Nat.log2 L ∧ L < 2 ^ (b + 2) := by
  have hb62 : b < 62 := by
    by_contra hc
    push_neg at hc
    have h2 : 2 ^ 62 ≤ 2 ^ b := Nat.pow_le_pow_right (by omega) hc
    omega
  have hfb : foremost_bit L = b + 1 := foremost_bit_eq (by omega) hb1 hb2
  refine ⟨?_, ?_, ?_⟩
  · unfold bucket_size
    rw [hfb, Nat.shiftLeft_eq, one_mul]
  · rw [Nat.log2_eq_log_two]
    have h1 : 2 ^ Nat.log 2 L ≤ L := Nat.pow_log_le_self 2 (by omega)
    have h2 : L < 2 ^ (Nat.log 2 L + 1) := Nat.lt_pow_succ_log_self (by omega) L
    by_contra hne
    rcases Nat.lt_or_ge b (Nat.log 2 L) with hlt | hge
    · have h3 : 2 ^ (b + 1) ≤ 2 ^ Nat.log 2 L :=
        Nat.pow_le_pow_right (by omega) (by omega)
      omega
    · have hgt : Nat.log 2 L < b := by omega
      have h3 : 2 ^ (Nat.log 2 L + 1) ≤ 2 ^ b :=
        Nat.pow_le_pow_right (by omega) (by omega)
      omega
  · have h3 : 2 ^ (b + 1) ≤ 2 ^ (b + 2) := Nat.pow_le_pow_right (by omega) (by omega)
    omega

theorem c4_witness :
    bucket_size 18 = 2 ^ 6 ∧ 4 = Nat.log2 18 ∧ 18 < 2 ^ 6 :=
  c4_bucket_rule 18 4 (by norm_num) (by norm_num) (by norm_num) (by norm_num)

theorem sget_lt_isSome {α : Type} {l : List α} {j : Nat} (h : j < l.length) :
    ∃ x, l.get? j = some x := by
  induction l generalizing j with
  | nil => simp at h
  | cons a t ih =>
    cases j with
    | zero => exact ⟨a, rfl⟩
    | succ n =>
      simp only [List.length_cons] at h
      exact ih (by omega)

theorem sget_some_lt {α : Type} {l : List α} {j : Nat} {x : α}
    (h : l.get? j = some x) : j < l.length := by
  induction l generalizing j with
  | nil => simp at h
  | cons a t ih =>
    cases j with
    | zero => simp
    | succ n =>
      simp only [List.get?] at h
      have := ih h
      simp only [List.length_cons]
      omega

theorem sget_set_self {α : Type} {l : List α} {i : Nat} (h : i < l.length)
    (x : α) : (l.set i x).get? i = some x := by
  induction l generalizing i with
  | nil => simp at h
  | cons a t ih =>
    cases i with
    | zero => rfl
    | succ n =>
      simp only [List.length_cons] at h
      simpa [List.set] using ih (by omega)

theorem sget_set_ne {α : Type} {l : List α} {i j : Nat} (h : j ≠ i) (x : α) :
    (l.set i x).get? j = l.get? j := by
  induction l generalizing i j with
  | nil => rfl
  | cons a t ih =>
    cases i with
    | zero =>
      cases j with
      | zero => exact absurd rfl h
      | succ m => rfl
    | succ n =>
      cases j with
      | zero => rfl
      | succ m =>
        simpa [List.set] using ih (fun hc => h (by omega))

theorem sget_take {α : Type} {l : List α} {n j : Nat} (h : j < n) :
    (l.take n).get? j = l.get? j := by
  induction l generalizing n j with
  | nil => simp
  | cons a t ih =>
    cases n with
    | zero => omega
    | succ m =>
      cases j with
      | zero => rfl
      | succ jj =>
        simpa [List.take] using ih (by omega)

theorem sget_take_none {α : Type} {l : List α} {n j : Nat} (h : n ≤ j) :
    (l.take n).get? j = none := by
  induction l generalizing n j with
  | nil => simp
  | cons a t ih =>
    cases n with
    | zero => simp
    | succ m =>
      cases j with
      | zero => omega
      | succ jj =>
        simpa [List.take] using ih (by omega)

theorem sget_append_left {α : Type} {l1 l2 : List α} {j : Nat}
    (h : j < l1.length) : (l1 ++ l2).get? j = l1.get? j := by
  induction l1 generalizing j with
  | nil => simp at h
  | cons a t ih =>
    cases j with
    | zero => rfl
    | succ n =>
      simp only [List.length_cons] at h
      simpa using ih (by omega)

theorem sget_append_self {α : Type} (l1 : List α) (x : α) :
    (l1 ++ [x]).get? l1.length = some x := by
  induction l1 with
  | nil => rfl
  | cons a t ih => simp [ih]

theorem sget_append_big {α : Type} {l1 : List α} (x : α) {j : Nat}
    (h : l1.length < j) : (l1 ++ [x]).get? j = none := by
  induction l1 generalizing j with
  | nil =>
    cases j with
    | zero => omega
    | succ n => simp
  | cons a t ih =>
    cases j with
    | zero => omega
    | succ n =>
      simp only [List.length_cons] at h
      simpa using ih (by omega)

theorem nodup_size_unique {files : List CacheLevel1} {b0 b1 : CacheLevel1}
    (hnd : (files.map CacheLevel1.size_per_item).Nodup) (h0 : b0 ∈ files)
    (h1 : b1 ∈ files) (hsz : b0.size_per_item = b1.size_per_item) :
    b0 = b1 := by
  induction files with
  | nil => simp at h0
  | cons a rest ih =>
    simp only [List.map_cons, List.nodup_cons] at hnd
    rcases List.mem_cons.mp h0 with h2 | h2 <;>
      rcases List.mem_cons.mp h1 with h3 | h3
    · rw [h2, h3]
    · exfalso
      subst h2
      exact hnd.1 (List.mem_map.mpr ⟨b1, h3, hsz.symm⟩)
    · exfalso
      subst h3
      exact hnd.1 (List.mem_map.mpr ⟨b0, h2, hsz⟩)
    · exact ih hnd.2 h2 h3

theorem lookupLevel1_of_mem_nodup {files : List CacheLevel1}
    {b : CacheLevel1}
    (hnd : (files.map CacheLevel1.size_per_item).Nodup) (hb : b ∈ files) :
    lookupLevel1 files b.size_per_item = some b := by
  induction files with
  | nil => simp at hb
  | cons a rest ih =>
    simp only [List.map_cons, List.nodup_cons] at hnd
    simp only [lookupLevel1]
    rcases List.mem_cons.mp hb with h2 | h2
    · subst h2
      rw [if_pos rfl]
    · by_cases h3 : a.size_per_item = b.size_per_item
      · exfalso
        exact hnd.1 (h3 ▸ List.mem_map.mpr ⟨b, h2, rfl⟩)
      · rw [if_neg h3]
        exact ih hnd.2 h2

theorem mem_updateLevel1_of_ne {files : List CacheLevel1} {sz : Nat}
    {b' b0 : CacheLevel1} (h : b0 ∈ files) (hne : b0.size_per_item ≠ sz) :
    b0 ∈ updateLevel1 files sz b' := by
  induction files with
  | nil => simp at h
  | cons a rest ih =>
    simp only [updateLevel1]
    by_cases h2 : a.size_per_item = sz
    · rw [if_pos h2]
      rcases List.mem_cons.mp h with h3 | h3
      · exact absurd (h3 ▸ h2) hne
      · exact List.mem_cons_of_mem _ (ih h3)
    · rw [if_neg h2]
      rcases List.mem_cons.mp h with h3 | h3
      · exact h3 ▸ List.mem_cons_self _ _
      · exact List.mem_cons_of_mem _ (ih h3)

theorem mem_updateLevel1_self {files : List CacheLevel1} {sz : Nat}
    {b' : CacheLevel1} (hb' : b'.size_per_item = sz)
    (hfound : (lookupLevel1 files sz).isSome) :
    b' ∈ updateLevel1 files sz b' :=
  (lookupLevel1_eq_some (lookupLevel1_updateLevel1_self hb' hfound)).1

theorem lookup_none_not_mem {files : List CacheLevel1} {sz : Nat}
    (h : lookupLevel1 files sz = none) {b : CacheLevel1} (hb : b ∈ files) :
    b.size_per_item ≠ sz := by
  intro hc
  have h2 := lookupLevel1_isSome_of_mem hb
  rw [hc, h] at h2
  cases h2

theorem good_access {K V : Type} [DecidableEq K] {ck : Codec K}
    {cv : Codec V} {s : FolderCache K} (hg : GoodFolder ck cv s) {k : K}
    {f i : Nat} (hmap : s.map k = some ⟨f, i⟩) :
    ∃ b, lookupLevel1 s.lvl2 f = some b ∧ b ∈ s.lvl2 ∧
      b.size_per_item = f ∧ ∃ v : V,
        b.slots.get? i = some ⟨ck.enc k, cv.enc v⟩ := by
  obtain ⟨b, hb, hsz, sl, hsl, hdec⟩ := hg.idx2slot k f i hmap
  obtain ⟨k0, v0, hslE, hmap0⟩ := hg.slot2idx b hb i sl hsl
  have hk0 : k0 = k := by
    have h2 : ck.dec (ck.enc k0) = some k := by
      rw [hslE] at hdec
      exact hdec
    rw [ck.dec_enc k0] at h2
    exact Option.some.inj h2
  subst hk0
  refine ⟨b, ?_, hb, hsz, v0, ?_⟩
  · rw [← hsz]
    exact lookupLevel1_of_mem_nodup hg.nd_sizes hb
  · rw [hsl, hslE]

theorem good_key_unique {K V : Type} [DecidableEq K] {ck : Codec K}
    {cv : Codec V} {s : FolderCache K} (hg : GoodFolder ck cv s)
    {k1 k2 : K} {r : Ref} (h1 : s.map k1 = some r)
    (h2 : s.map k2 = some r) : k1 = k2 := by
  obtain ⟨f, i⟩ := r
  obtain ⟨b, hlk, hb, hsz, v, hsl⟩ := good_access hg h1
  obtain ⟨b2, hlk2, hb2, hsz2, v2, hsl2⟩ := good_access hg h2
  rw [hlk] at hlk2
  cases hlk2
  rw [hsl] at hsl2
  have h3 : ck.enc k1 = ck.enc k2 := congrArg Slot.kser (Option.some.inj hsl2)
  have h4 := ck.dec_enc k1
  rw [h3, ck.dec_enc k2] at h4
  exact (Option.some.inj h4).symm

theorem folder_get_ok {K V : Type} [DecidableEq K] {ck : Codec K}
    {cv : Codec V} {s : FolderCache K} (hg : GoodFolder ck cv s) {k : K}
    {r : Ref} (hmap : s.map k = some r) :
    ∃ v : V, FolderCache.get cv s k = .ok v := by
  obtain ⟨f, i⟩ := r
  obtain ⟨b, hlk, hb, hsz, v, hsl⟩ := good_access hg hmap
  refine ⟨v, ?_⟩
  unfold FolderCache.get lvl2GetV
  rw [hmap]
  simp only []
  rw [hlk]
  simp only []
  rw [hsl]
  simp only []
  rw [cv.dec_enc]

theorem lruPush_out_mem {K V : Type} [DecidableEq K] {cap : Nat}
    {l : List (K × Entry V)} {k : K} {e : Entry V} {p : K × Entry V}
    (h : (lruPush cap l k e).2 = some p) : p ∈ l := by
  unfold lruPush at h
  cases hx : alook l k with
  | some old =>
    rw [hx] at h
    simp only [Option.some.injEq] at h
    subst h
    exact alook_some_mem hx
  | none =>
    rw [hx] at h
    by_cases h2 : l.length = cap
    · rw [if_pos h2] at h
      cases l with
      | nil => cases h
      | cons victim rest =>
        simp only [Option.some.injEq] at h
        subst h
        exact List.mem_cons_self _ _
    · rw [if_neg h2] at h
      cases h

theorem lruPush_mem {K V : Type} [DecidableEq K] {cap : Nat}
    {l : List (K × Entry V)} {k : K} {e : Entry V} {p : K × Entry V}
    (h : p ∈ (lruPush cap l k e).1) : p = (k, e) ∨ p ∈ l := by
  unfold lruPush at h
  cases hx : alook l k with
  | some old =>
    rw [hx] at h
    rcases List.mem_append.mp h with h2 | h2
    · exact Or.inr (mem_aerase h2).1
    · simp only [List.mem_singleton] at h2
      exact Or.inl h2
  | none =>
    rw [hx] at h
    by_cases h2 : l.length = cap
    · rw [if_pos h2] at h
      cases l with
      | nil =>
        simp only [List.mem_singleton] at h
        exact Or.inl h
      | cons victim rest =>
        rcases List.mem_append.mp h with h3 | h3
        · exact Or.inr (List.mem_cons_of_mem _ h3)
        · simp only [List.mem_singleton] at h3
          exact Or.inl h3
    · rw [if_neg h2] at h
      rcases List.mem_append.mp h with h3 | h3
      · exact Or.inr h3
      · simp only [List.mem_singleton] at h3
        exact Or.inl h3

theorem writeBack_clean_folder {K V : Type} [DecidableEq K] (ck : Codec K)
    (cv : Codec V) (b : FolderCache K) (k : K) (e : Entry V)
    (hcl : e.changed = false) :
    CacheMutBase.writeBack (folderCompatible ck cv) b k e = (.ok (), b) := by
  unfold CacheMutBase.writeBack
  rw [hcl]
  rfl

/-- deactivate of a folder-backed cache never changes the folder when
every LRU entry is clean: the only possible backend call is replace,
which the folder backend ignores. -/
theorem deactivate_folder_compatible {K V : Type} [DecidableEq K]
    (ck : Codec K) (cv : Codec V)
    {s : CacheMutBase K V (FolderCache K)} {k : K}
    (hclru : ∀ p ∈ s.lru, p.2.changed = false) :
    (CacheMutBase.deactivate (folderCompatible ck cv) s k).2.compatible =
      s.compatible := by
  unfold CacheMutBase.deactivate
  cases hx : alook s.active k with
  | none => rfl
  | some item =>
    simp only []
    cases hp : lruPush s.cap s.lru k item with
    | mk lru' out =>
      cases out with
      | none => rfl
      | some p =>
        obtain ⟨k', e'⟩ := p
        have hmem : (k', e') ∈ s.lru := lruPush_out_mem (by rw [hp])
        have hcl : e'.changed = false := hclru (k', e') hmem
        simp only []
        by_cases hlk : e'.is_locked
        · rw [if_pos hlk]
        · rw [if_neg hlk]
          rw [writeBack_clean_folder ck cv _ _ _ hcl]

theorem deactivate_clean_nowriter {K V B : Type} [DecidableEq K]
    (CC : CacheMutCompatible K V B E)
    {s : CacheMutBase K V B} {k : K} (hcl : AllClean s) (hw : NoWriter s) :
    AllClean (CacheMutBase.deactivate CC s k).2 ∧
    NoWriter (CacheMutBase.deactivate CC s k).2 := by
  cases hx : alook s.active k with
  | none =>
    have hs : (CacheMutBase.deactivate CC s k).2 = s := by
      unfold CacheMutBase.deactivate
      rw [hx]
    rw [hs]
    exact ⟨hcl, hw⟩
  | some item =>
    have hitem : item.changed = false := hcl.1 (k, item) (alook_some_mem hx)
    obtain ⟨b, hs⟩ := deactivate_shape CC s k item hx
    rw [hs]
    refine ⟨⟨?_, ?_⟩, ?_⟩
    · intro p hp
      exact hcl.1 p (mem_aerase hp).1
    · intro p hp
      rcases lruPush_mem hp with h2 | h2
      · rw [h2]
        exact hitem
      · exact hcl.2 p h2
    · intro p hp
      exact hw p (mem_aerase hp).1

theorem post_get_release {K V : Type} [DecidableEq K] (ck : Codec K)
    (cv : Codec V) {s1 : CacheMutBase K V (FolderCache K)} {k : K}
    {e1 : Entry V} (he1 : alook s1.active k = some e1)
    (hr : e1.readers ≠ 0) (hwr : e1.writer = false) (hInv1 : Inv s1)
    (hcl1 : AllClean s1) (hw1 : NoWriter s1) :
    (CacheMutBase.releaseShared (folderCompatible ck cv) s1 k).2.compatible =
      s1.compatible ∧
    Inv (CacheMutBase.releaseShared (folderCompatible ck cv) s1 k).2 ∧
    AllClean (CacheMutBase.releaseShared (folderCompatible ck cv) s1 k).2 ∧
    NoWriter (CacheMutBase.releaseShared (folderCompatible ck cv) s1 k).2 := by
  have hInv2 : Inv (CacheMutBase.releaseShared (folderCompatible ck cv) s1 k).2 :=
    inv_step hInv1 (Step.releaseShared s1 k e1 he1 hr hwr)
  have hecl : e1.changed = false := hcl1.1 (k, e1) (alook_some_mem he1)
  refine ⟨?_, hInv2, ?_, ?_⟩
  · unfold CacheMutBase.releaseShared
    rw [he1]
    simp only []
    by_cases hlk : ({ e1 with readers := e1.readers - 1 } : Entry V).is_locked
    · rw [if_pos hlk]
    · rw [if_neg hlk]
      exact deactivate_folder_compatible ck cv hcl1.2
  · unfold CacheMutBase.releaseShared
    rw [he1]
    simp only []
    by_cases hlk : ({ e1 with readers := e1.readers - 1 } : Entry V).is_locked
    · rw [if_pos hlk]
      constructor
      · intro p hp
        rcases mem_ains hp with h2 | h2
        · rw [h2]
          exact hecl
        · exact hcl1.1 p h2
      · exact hcl1.2
    · rw [if_neg hlk]
      refine (deactivate_clean_nowriter (folderCompatible ck cv) ⟨?_, ?_⟩ ?_).1
      · intro p hp
        rcases mem_ains hp with h2 | h2
        · rw [h2]
          exact hecl
        · exact hcl1.1 p h2
      · exact hcl1.2
      · intro p hp
        rcases mem_ains hp with h2 | h2
        · rw [h2]
          exact hwr
        · exact hw1 p h2
  · unfold CacheMutBase.releaseShared
    rw [he1]
    simp only []
    by_cases hlk : ({ e1 with readers := e1.readers - 1 } : Entry V).is_locked
    · rw [if_pos hlk]
      intro p hp
      rcases mem_ains hp with h2 | h2
      · rw [h2]
        exact hwr
      · exact hw1 p h2
    · rw [if_neg hlk]
      refine (deactivate_clean_nowriter (folderCompatible ck cv) ⟨?_, ?_⟩ ?_).2
      · intro p hp
        rcases mem_ains hp with h2 | h2
        · rw [h2]
          exact hecl
        · exact hcl1.1 p h2
      · exact hcl1.2
      · intro p hp
        rcases mem_ains hp with h2 | h2
        · rw [h2]
          exact hwr
        · exact hw1 p h2

theorem getDrop_folder {K V : Type} [DecidableEq K] (ck : Codec K)
    (cv : Codec V) {s : CacheMutBase K V (FolderCache K)} {k : K}
    (hInv : Inv s) (hcl : AllClean s) (hw : NoWriter s)
    (hk : (s.compatible.map k).isSome) (hg : GoodFolder ck cv s.compatible) :
    ∃ s', getDrop (folderCompatible ck cv) s k = some s' ∧
      s'.compatible = s.compatible ∧ Inv s' ∧ AllClean s' ∧ NoWriter s' := by
  unfold getDrop
  cases hact : alook s.active k with
  | some e =>
    have hwr : e.writer = false := hw (k, e) (alook_some_mem hact)
    have hecl : e.changed = false := hcl.1 (k, e) (alook_some_mem hact)
    have hget : CacheMutBase.get (folderCompatible ck cv) s k = some (.ok e.val, { s with active := ains s.active k { e with readers := e.readers + 1 } }) := by
      unfold CacheMutBase.get
      rw [hact]
      simp only []
      rw [if_neg (by rw [hwr]; exact Bool.false_ne_true)]
    rw [hget]
    simp only []
    have hInv1 : Inv ({ s with active := ains s.active k { e with readers := e.readers + 1 } } : CacheMutBase K V (FolderCache K)) :=
      inv_step hInv (Step.get s k _ _ hget)
    have hcl1 : AllClean ({ s with active := ains s.active k { e with readers := e.readers + 1 } } : CacheMutBase K V (FolderCache K)) := by
      constructor
      · intro p hp
        rcases mem_ains hp with h2 | h2
        · rw [h2]
          exact hecl
        · exact hcl.1 p h2
      · exact hcl.2
    have hw1 : NoWriter ({ s with active := ains s.active k { e with readers := e.readers + 1 } } : CacheMutBase K V (FolderCache K)) := by
      intro p hp
      rcases mem_ains hp with h2 | h2
      · rw [h2]
        exact hwr
      · exact hw p h2
    obtain ⟨hc, hi, hc2, hw2⟩ := post_get_release ck cv
      (alook_ains_self s.active k { e with readers := e.readers + 1 })
      (show ({ e with readers := e.readers + 1 } : Entry V).readers ≠ 0 from
        Nat.succ_ne_zero e.readers)
      (show ({ e with readers := e.readers + 1 } : Entry V).writer = false from hwr)
      hInv1 hcl1 hw1
    exact ⟨_, rfl, hc, hi, hc2, hw2⟩
  | none =>
    cases hlru : alook s.lru k with
    | some e =>
      obtain ⟨hrd0, hwr⟩ := hInv.lru_unlocked (k, e) (alook_some_mem hlru)
      have hecl : e.changed = false := hcl.2 (k, e) (alook_some_mem hlru)
      have hget : CacheMutBase.get (folderCompatible ck cv) s k = some (.ok e.val, { s with lru := aerase s.lru k, active := ains s.active k { e with readers := e.readers + 1 } }) := by
        unfold CacheMutBase.get
        rw [hact]
        simp only []
        rw [hlru]
        simp only []
        rw [if_neg (by rw [hwr]; exact Bool.false_ne_true)]
      rw [hget]
      simp only []
      have hInv1 : Inv ({ s with lru := aerase s.lru k, active := ains s.active k { e with readers := e.readers + 1 } } : CacheMutBase K V (FolderCache K)) :=
        inv_step hInv (Step.get s k _ _ hget)
      have hcl1 : AllClean ({ s with lru := aerase s.lru k, active := ains s.active k { e with readers := e.readers + 1 } } : CacheMutBase K V (FolderCache K)) := by
        constructor
        · intro p hp
          rcases mem_ains hp with h2 | h2
          · rw [h2]
            exact hecl
          · exact hcl.1 p h2
        · intro p hp
          exact hcl.2 p (mem_aerase hp).1
      have hw1 : NoWriter ({ s with lru := aerase s.lru k, active := ains s.active k { e with readers := e.readers + 1 } } : CacheMutBase K V (FolderCache K)) := by
        intro p hp
        rcases mem_ains hp with h2 | h2
        · rw [h2]
          exact hwr
        · exact hw p h2
      obtain ⟨hc, hi, hc2, hw2⟩ := post_get_release ck cv
        (alook_ains_self s.active k { e with readers := e.readers + 1 })
        (show ({ e with readers := e.readers + 1 } : Entry V).readers ≠ 0 from
          Nat.succ_ne_zero e.readers)
        (show ({ e with readers := e.readers + 1 } : Entry V).writer = false from hwr)
        hInv1 hcl1 hw1
      exact ⟨_, rfl, hc, hi, hc2, hw2⟩
    | none =>
      obtain ⟨r, hr⟩ := Option.isSome_iff_exists.mp hk
      obtain ⟨v, hv⟩ := folder_get_ok hg hr
      have hbg : (folderCompatible ck cv).get s.compatible k = (Except.ok v, s.compatible) := by
        show (FolderCache.get cv s.compatible k, s.compatible) = _
        rw [hv]
      have hget : CacheMutBase.get (folderCompatible ck cv) s k = some (.ok v, { s with compatible := s.compatible, active := ains s.active k ⟨false, 1, false, v⟩ }) := by
        unfold CacheMutBase.get
        rw [hact]
        simp only []
        rw [hlru]
        simp only []
        rw [hbg]
      rw [hget]
      simp only []
      have hInv1 : Inv ({ s with compatible := s.compatible, active := ains s.active k ⟨false, 1, false, v⟩ } : CacheMutBase K V (FolderCache K)) :=
        inv_step hInv (Step.get s k _ _ hget)
      have hcl1 : AllClean ({ s with compatible := s.compatible, active := ains s.active k ⟨false, 1, false, v⟩ } : CacheMutBase K V (FolderCache K)) := by
        constructor
        · intro p hp
          rcases mem_ains hp with h2 | h2
          · rw [h2]
          · exact hcl.1 p h2
        · exact hcl.2
      have hw1 : NoWriter ({ s with compatible := s.compatible, active := ains s.active k ⟨false, 1, false, v⟩ } : CacheMutBase K V (FolderCache K)) := by
        intro p hp
        rcases mem_ains hp with h2 | h2
        · rw [h2]
        · exact hw p h2
      obtain ⟨hc, hi, hc2, hw2⟩ := post_get_release ck cv
        (alook_ains_self s.active k ⟨false, 1, false, v⟩)
        (show (⟨false, 1, false, v⟩ : Entry V).readers ≠ 0 from Nat.one_ne_zero)
        (show (⟨false, 1, false, v⟩ : Entry V).writer = false from rfl)
        hInv1 hcl1 hw1
      exact ⟨_, rfl, hc, hi, hc2, hw2⟩

theorem getDropN_folder {K V : Type} [DecidableEq K] (ck : Codec K)
    (cv : Codec V) (k : K) :
    ∀ (n : Nat) (s : CacheMutBase K V (FolderCache K)), Inv s → AllClean s →
      NoWriter s → (s.compatible.map k).isSome →
      GoodFolder ck cv s.compatible →
      ∃ s', getDropN (folderCompatible ck cv) n s k = some s' ∧
        s'.compatible = s.compatible := by
  intro n
  induction n with
  | zero =>
    intro s h1 h2 h3 h4 h5
    exact ⟨s, rfl, rfl⟩
  | succ m ih =>
    intro s h1 h2 h3 h4 h5
    obtain ⟨s1, hgd, hcomp, hInv1, hcl1, hw1⟩ := getDrop_folder ck cv h1 h2 h3 h4 h5
    obtain ⟨s', hrest, hcomp2⟩ := ih s1 hInv1 hcl1 hw1
      (by rw [hcomp]; exact h4) (by rw [hcomp]; exact h5)
    refine ⟨s', ?_, hcomp2.trans hcomp⟩
    unfold getDropN
    rw [hgd]
    exact hrest

/-- C7 (counterexample to the claim as stated for the in-memory backend):
the claim is backend-generic, but HashMap's CacheCompatible::get removes
the value from the map, so a single get followed by dropping the shared
handle moves the key into the cache LRU and changes the backend contents:
starting from backend [(3, 30)] with key 3 present, one get(3)+drop
leaves the backend empty. -/
theorem c7_counterexample :
    (alook wS0.compatible 3).isSome = true ∧
    ∃ s', getDrop (hashmapCompatible Nat Nat) wS0 3 = some s' ∧
      s'.compatible ≠ wS0.compatible := by
  refine ⟨rfl, ⟨[], [(3, ⟨false, 0, false, 30⟩)], 2, []⟩, rfl, ?_⟩
  intro hc
  exact List.noConfusion hc

/-- C7: for a key k present in the folder backend, repeating cache.get(k)
followed by dropping the returned shared handle any number of times never
changes the folder backend contents, provided no exclusive handle was
taken (all cached entries are clean and no write borrow is outstanding). -/
theorem c7_get_idempotent {K V : Type} [DecidableEq K] (ck : Codec K)
    (cv : Codec V) (s : CacheMutBase K V (FolderCache K)) (k : K)
    (hInv : Inv s) (hcl : AllClean s) (hw : NoWriter s)
    (hk : (s.compatible.map k).isSome) (hg : GoodFolder ck cv s.compatible) :
    ∀ n : Nat, ∃ s', getDropN (folderCompatible ck cv) n s k = some s' ∧
      s'.compatible = s.compatible := by
  intro n
  exact getDropN_folder ck cv k n s hInv hcl hw hk hg

/-- C9: when the key is in neither the active map nor the LRU and the
backend get fails, cache get and get_mut return the backend error
unchanged and leave active and LRU untouched; the folder backend reports
its not-present error for an absent key without changing its state. -/
theorem c9_error_propagation [DecidableEq K] (CC : CacheMutCompatible K V B E)
    (s : CacheMutBase K V B) (k : K) (e : E) (b' : B) (ck : Codec K)
    (cv : Codec V) (fs : FolderCache K)
    (hact : alook s.active k = none) (hlru : alook s.lru k = none)
    (hget : CC.get s.compatible k = (.error e, b')) :
    CacheMutBase.get CC s k = some (.err e, { s with compatible := b' }) ∧
    CacheMutBase.get_mut CC s k = some (.err e, { s with compatible := b' }) ∧
    ((fs.map k).isSome = false →
      (folderCompatible ck cv).get fs k = (.error .nothing, fs)) := by
  refine ⟨?_, ?_, ?_⟩
  · unfold CacheMutBase.get
    rw [hact]
    simp only []
    rw [hlru]
    simp only []
    rw [hget]
  · unfold CacheMutBase.get_mut
    rw [hact]
    simp only []
    rw [hlru]
    simp only []
    rw [hget]
  · intro hnone
    have h2 : fs.map k = none := by
      cases hx : fs.map k with
      | none => rfl
      | some r =>
        rw [hx] at hnone
        cases hnone
    show (FolderCache.get cv fs k, fs) = _
    unfold FolderCache.get
    rw [h2]

theorem wFolder_good : GoodFolder natCodec natCodec wFolder := by
  refine ⟨?_, ?_, ?_⟩
  · simp [wFolder]
  · intro b hb i sl hsl
    simp only [wFolder, List.mem_singleton] at hb
    subst hb
    cases i with
    | zero =>
      simp only [List.get?] at hsl
      cases hsl
      exact ⟨7, 70, rfl, rfl⟩
    | succ n =>
      simp [List.get?] at hsl
  · intro k f i hmap
    simp only [wFolder] at hmap
    by_cases hk : k = 7
    · subst hk
      rw [if_pos rfl] at hmap
      cases hmap
      exact ⟨⟨32, 4, [⟨[7], [70]⟩]⟩, by simp [wFolder], rfl,
        ⟨[7], [70]⟩, rfl, rfl⟩
    · rw [if_neg hk] at hmap
      cases hmap

theorem wFS_inv : Inv wFS := by
  refine ⟨keysND_nil, keysND_nil, ?_, ?_, ?_, ?_, ?_, ?_⟩
  · intro k hk
    simp [wFS, alook] at hk
  · intro p hp
    simp [wFS] at hp
  · intro p hp
    simp [wFS] at hp
  · intro p hp
    simp [wFS] at hp
  · simp [wFS]
  · simp [wFS]

theorem c7_witness :
    ∃ s', getDropN (folderCompatible natCodec natCodec) 2 wFS 7 =
      some s' ∧ s'.compatible = wFS.compatible :=
  c7_get_idempotent natCodec natCodec wFS 7 wFS_inv
    ⟨fun p hp => absurd hp (List.not_mem_nil p),
      fun p hp => absurd hp (List.not_mem_nil p)⟩
    (fun p hp => absurd hp (List.not_mem_nil p)) rfl wFolder_good 2

theorem c9_witness :
    CacheMutBase.get (hashmapCompatible Nat Nat) wS0 7 =
      some (.err .mk, { wS0 with compatible := wBack }) ∧
    CacheMutBase.get_mut (hashmapCompatible Nat Nat) wS0 7 =
      some (.err .mk, { wS0 with compatible := wBack }) ∧
    (((FolderCache.cleared Nat).map 7).isSome = false →
      (folderCompatible natCodec natCodec).get (FolderCache.cleared Nat) 7 =
        (.error .nothing, FolderCache.cleared Nat)) :=
  c9_error_propagation (hashmapCompatible Nat Nat) wS0 7 .mk wBack natCodec
    natCodec (FolderCache.cleared Nat) rfl rfl rfl

@[simp]
theorem mapIns_self {K : Type} [DecidableEq K] (m : K → Option Ref) (k : K)
    (r : Ref) : mapIns m k r k = some r := by
  simp [mapIns]

theorem mapIns_ne {K : Type} [DecidableEq K] (m : K → Option Ref) {k k' : K}
    (r : Ref) (h : k' ≠ k) : mapIns m k r k' = m k' := by
  simp [mapIns, h]

@[simp]
theorem mapDel_self {K : Type} [DecidableEq K] (m : K → Option Ref) (k : K) :
    mapDel m k k = none := by
  simp [mapDel]

theorem mapDel_ne {K : Type} [DecidableEq K] (m : K → Option Ref) {k k' : K}
    (h : k' ≠ k) : mapDel m k k' = m k' := by
  simp [mapDel, h]

theorem good_slot_key {K V : Type} [DecidableEq K] {ck : Codec K}
    {cv : Codec V} {s : FolderCache K} (hg : GoodFolder ck cv s)
    {b : CacheLevel1} (hb : b ∈ s.lvl2) {i : Nat} {sl : Slot}
    (hsl : b.slots.get? i = some sl) {k : K} (hdec : ck.dec sl.kser = some k) :
    s.map k = some ⟨b.size_per_item, i⟩ := by
  obtain ⟨k0, v0, hslE, hmap0⟩ := hg.slot2idx b hb i sl hsl
  have hk0 : k0 = k := by
    have h2 : ck.dec (ck.enc k0) = some k := by
      rw [hslE] at hdec
      exact hdec
    rw [ck.dec_enc k0] at h2
    exact Option.some.inj h2
  rw [← hk0]
  exact hmap0

theorem swap_remove_last {K : Type} (ck : Codec K) (b : CacheLevel1) {i : Nat}
    (hlast : i = b.num_items - 1) :
    CacheLevel1.swap_remove ck b i =
      .ok ({ b with slots := b.slots.take (b.num_items - 1) }, none) := by
  unfold CacheLevel1.swap_remove
  rw [if_pos hlast]

theorem swap_remove_mid {K V : Type} [DecidableEq K] {ck : Codec K}
    {cv : Codec V} {s : FolderCache K} (hg : GoodFolder ck cv s)
    {b : CacheLevel1} (hb : b ∈ s.lvl2) {i : Nat}
    (hi : i < b.slots.length) (hlast : i ≠ b.num_items - 1) :
    ∃ (mk : K) (mv : V),
      b.slots.get? (b.slots.length - 1) = some ⟨ck.enc mk, cv.enc mv⟩ ∧
      s.map mk = some ⟨b.size_per_item, b.slots.length - 1⟩ ∧
      CacheLevel1.swap_remove ck b i =
        .ok ({ b with slots :=
          (b.slots.set i ⟨ck.enc mk, cv.enc mv⟩).take (b.slots.length - 1) },
          some mk) := by
  have hll : b.slots.length - 1 < b.slots.length := by omega
  obtain ⟨last, hlastq⟩ := sget_lt_isSome hll
  obtain ⟨mk, mv, hlastE, hmapmk⟩ := hg.slot2idx b hb _ last hlastq
  subst hlastE
  refine ⟨mk, mv, hlastq, hmapmk, ?_⟩
  unfold CacheLevel1.swap_remove
  rw [if_neg hlast]
  have h2 : b.slots.get? (b.num_items - 1) = some ⟨ck.enc mk, cv.enc mv⟩ := hlastq
  rw [h2]
  simp only []
  rw [ck.dec_enc]
  rfl

/-- The ensure-bucket-then-append step shared by CacheLevel2::add and the
cross-bucket arm of CacheLevel2::overwrite. -/
theorem ensure_add_spec {files : List CacheLevel1}
    (hnd : (files.map CacheLevel1.size_per_item).Nodup) (F : Nat)
    (kser vser : List Nat) :
    (((ensureLevel1 files F).2.add kser vser).1.size_per_item = F) ∧
    (((ensureLevel1 files F).2.add kser vser).2 =
      (ensureLevel1 files F).2.slots.length) ∧
    (((ensureLevel1 files F).2.add kser vser).1.slots =
      (ensureLevel1 files F).2.slots ++ [⟨kser, vser⟩]) ∧
    (lookupLevel1 (updateLevel1 (ensureLevel1 files F).1 F
        ((ensureLevel1 files F).2.add kser vser).1) F =
      some ((ensureLevel1 files F).2.add kser vser).1) ∧
    (∀ sz : Nat, sz ≠ F →
      lookupLevel1 (updateLevel1 (ensureLevel1 files F).1 F
          ((ensureLevel1 files F).2.add kser vser).1) sz =
        lookupLevel1 files sz) ∧
    ((updateLevel1 (ensureLevel1 files F).1 F
        ((ensureLevel1 files F).2.add kser vser).1).map
          CacheLevel1.size_per_item).Nodup ∧
    (∀ c ∈ updateLevel1 (ensureLevel1 files F).1 F
        ((ensureLevel1 files F).2.add kser vser).1,
      c = ((ensureLevel1 files F).2.add kser vser).1 ∨
        (c ∈ files ∧ c.size_per_item ≠ F)) ∧
    (∀ c ∈ files, c.size_per_item ≠ F →
      c ∈ updateLevel1 (ensureLevel1 files F).1 F
        ((ensureLevel1 files F).2.add kser vser).1) ∧
    ((lookupLevel1 files F = some (ensureLevel1 files F).2) ∨
      (lookupLevel1 files F = none ∧ (ensureLevel1 files F).2.slots = [])) := by
  cases hlf : lookupLevel1 files F with
  | some b0 =>
    obtain ⟨hb0m, hb0sz⟩ := lookupLevel1_eq_some hlf
    have hens : ensureLevel1 files F = (files, b0) := by
      unfold ensureLevel1
      rw [hlf]
    rw [hens]
    simp only []
    have haddsz : (b0.add kser vser).1.size_per_item = F := by
      unfold CacheLevel1.add
      by_cases h2 : b0.num_items ≥ b0.reserved
      · rw [if_pos h2]
        exact hb0sz
      · rw [if_neg h2]
        exact hb0sz
    have haddslots : (b0.add kser vser).1.slots = b0.slots ++ [⟨kser, vser⟩] := by
      unfold CacheLevel1.add
      by_cases h2 : b0.num_items ≥ b0.reserved
      · rw [if_pos h2]
      · rw [if_neg h2]
    refine ⟨haddsz, rfl, haddslots, ?_, ?_, ?_, ?_, ?_, Or.inl (by trivial)⟩
    · exact lookupLevel1_updateLevel1_self haddsz (by rw [hlf]; rfl)
    · intro sz hsz
      exact lookupLevel1_updateLevel1_ne haddsz hsz
    · rw [sizes_updateLevel1 haddsz]
      exact hnd
    · intro c hc
      exact mem_updateLevel1 hc
    · intro c hc hcne
      exact mem_updateLevel1_of_ne hc hcne
  | none =>
    have hens : ensureLevel1 files F = (insertSorted files ⟨F, 4, []⟩, ⟨F, 4, []⟩) := by
      unfold ensureLevel1
      rw [hlf]
    rw [hens]
    simp only []
    have hFnotin : F ∉ files.map CacheLevel1.size_per_item := by
      intro hc
      obtain ⟨c, hcm, hcsz⟩ := List.mem_map.mp hc
      exact lookup_none_not_mem hlf hcm hcsz
    have haddsz : ((⟨F, 4, []⟩ : CacheLevel1).add kser vser).1.size_per_item = F := rfl
    have haddslots : ((⟨F, 4, []⟩ : CacheLevel1).add kser vser).1.slots =
        ([] : List Slot) ++ [⟨kser, vser⟩] := rfl
    have hlkins : lookupLevel1 (insertSorted files ⟨F, 4, []⟩) F =
        some ⟨F, 4, []⟩ :=
      lookup_insertSorted_self hFnotin
    refine ⟨haddsz, rfl, haddslots, ?_, ?_, ?_, ?_, ?_, Or.inr ⟨by trivial, by trivial⟩⟩
    · exact lookupLevel1_updateLevel1_self haddsz (by rw [hlkins]; rfl)
    · intro sz hsz
      rw [lookupLevel1_updateLevel1_ne haddsz hsz]
      exact lookup_insertSorted_ne hsz
    · rw [sizes_updateLevel1 haddsz]
      refine ((sizes_insertSorted_perm files ⟨F, 4, []⟩).nodup_iff).mpr ?_
      simp only [List.nodup_cons]
      exact ⟨hFnotin, hnd⟩
    · intro c hc
      rcases mem_updateLevel1 hc with h2 | ⟨h2, h3⟩
      · exact Or.inl h2
      · rcases mem_insertSorted.mp h2 with h4 | h4
        · exfalso
          apply h3
          rw [h4]
        · exact Or.inr ⟨h4, h3⟩
    · intro c hc hcne
      exact mem_updateLevel1_of_ne (mem_insertSorted.mpr (Or.inr hc)) hcne

theorem good_swapout_last {K V : Type} [DecidableEq K] {ck : Codec K}
    {cv : Codec V} {s : FolderCache K} (hg : GoodFolder ck cv s) {k : K}
    {f i : Nat} (hmk : s.map k = some ⟨f, i⟩) {b : CacheLevel1}
    (hlk : lookupLevel1 s.lvl2 f = some b) (hlast : i = b.num_items - 1) :
    GoodFolder ck cv ⟨updateLevel1 s.lvl2 f { b with slots := b.slots.take (b.num_items - 1) }, mapDel s.map k⟩ := by
  obtain ⟨hbmem, hbsz⟩ := lookupLevel1_eq_some hlk
  have hBsz : ({ b with slots := b.slots.take (b.num_items - 1) } : CacheLevel1).size_per_item = f := hbsz
  refine ⟨?_, ?_, ?_⟩
  · show ((updateLevel1 s.lvl2 f _).map CacheLevel1.size_per_item).Nodup
    rw [sizes_updateLevel1 hBsz]
    exact hg.nd_sizes
  · intro c hc j sl hslj
    rcases mem_updateLevel1 hc with hcB | ⟨hcf, hcne⟩
    · subst hcB
      have hjlen : j < b.num_items - 1 := by
        have h2 := sget_some_lt hslj
        simpa [CacheLevel1.num_items] using h2
      rw [sget_take hjlen] at hslj
      obtain ⟨kj, vj, hslE, hmapj⟩ := hg.slot2idx b hbmem j sl hslj
      have hkj : kj ≠ k := by
        intro hc2
        subst hc2
        rw [hmk] at hmapj
        have h3 := (Ref.mk.injEq _ _ _ _).mp (Option.some.inj hmapj)
        obtain ⟨h4, h5⟩ := h3
        omega
      refine ⟨kj, vj, hslE, ?_⟩
      show mapDel s.map k kj = _
      rw [mapDel_ne _ hkj]
      exact hmapj
    · obtain ⟨kj, vj, hslE, hmapj⟩ := hg.slot2idx c hcf j sl hslj
      have hkj : kj ≠ k := by
        intro hc2
        subst hc2
        rw [hmk] at hmapj
        have h3 := (Ref.mk.injEq _ _ _ _).mp (Option.some.inj hmapj)
        exact hcne h3.1.symm
      refine ⟨kj, vj, hslE, ?_⟩
      show mapDel s.map k kj = _
      rw [mapDel_ne _ hkj]
      exact hmapj
  · intro k2 f2 j hmj
    have hmj2 : mapDel s.map k k2 = some ⟨f2, j⟩ := hmj
    by_cases hk2 : k2 = k
    · subst hk2
      rw [mapDel_self] at hmj2
      cases hmj2
    · rw [mapDel_ne _ hk2] at hmj2
      obtain ⟨b0, hb0m, hb0sz, sl0, hsl0, hdec0⟩ :=
        hg.idx2slot k2 f2 j hmj2
      by_cases hf2 : f2 = f
      · subst hf2
        have hb0b : b0 = b :=
          nodup_size_unique hg.nd_sizes hb0m hbmem (by rw [hb0sz, hbsz])
        rw [hb0b] at hsl0
        have hji : j ≠ i := by
          intro hc2
          subst hc2
          apply hk2
          exact good_key_unique hg hmj2 hmk
        have hjlt : j < b.num_items - 1 := by
          have h2 := sget_some_lt hsl0
          have h3 : j ≠ b.num_items - 1 := by
            rw [← hlast]
            exact hji
          simp only [CacheLevel1.num_items] at h3 ⊢
          omega
        refine ⟨{ b with slots := b.slots.take (b.num_items - 1) }, mem_updateLevel1_self hBsz (by rw [hlk]; rfl), hbsz, sl0, ?_, hdec0⟩
        show (b.slots.take (b.num_items - 1)).get? j = some sl0
        rw [sget_take hjlt]
        exact hsl0
      · exact ⟨b0, mem_updateLevel1_of_ne hb0m (by rw [hb0sz]; exact hf2), hb0sz, sl0, hsl0, hdec0⟩

theorem good_swapout_mid {K V : Type} [DecidableEq K] {ck : Codec K}
    {cv : Codec V} {s : FolderCache K} (hg : GoodFolder ck cv s) {k : K}
    {f i : Nat} (hmk : s.map k = some ⟨f, i⟩) {b : CacheLevel1}
    (hlk : lookupLevel1 s.lvl2 f = some b) (hilen : i < b.slots.length)
    (hlast : i ≠ b.num_items - 1) {mk : K} {mv : V}
    (hmapmk : s.map mk = some ⟨b.size_per_item, b.slots.length - 1⟩) :
    GoodFolder ck cv ⟨updateLevel1 s.lvl2 f { b with slots := (b.slots.set i ⟨ck.enc mk, cv.enc mv⟩).take (b.slots.length - 1) }, mapIns (mapDel s.map k) mk ⟨f, i⟩⟩ := by
  obtain ⟨hbmem, hbsz⟩ := lookupLevel1_eq_some hlk
  have hBsz : ({ b with slots := (b.slots.set i ⟨ck.enc mk, cv.enc mv⟩).take (b.slots.length - 1) } : CacheLevel1).size_per_item = f := hbsz
  refine ⟨?_, ?_, ?_⟩
  · show ((updateLevel1 s.lvl2 f _).map CacheLevel1.size_per_item).Nodup
    rw [sizes_updateLevel1 hBsz]
    exact hg.nd_sizes
  · intro c hc j sl hslj
    rcases mem_updateLevel1 hc with hcB | ⟨hcf, hcne⟩
    · subst hcB
      have hjlen : j < b.slots.length - 1 := by
        have h2 := sget_some_lt hslj
        simpa using h2
      rw [sget_take hjlen] at hslj
      by_cases hji : j = i
      · subst hji
        rw [sget_set_self hilen] at hslj
        cases hslj
        refine ⟨mk, mv, rfl, ?_⟩
        show mapIns (mapDel s.map k) mk ⟨f, j⟩ mk = _
        rw [mapIns_self]
        show (some (⟨f, j⟩ : Ref) : Option Ref) = some ⟨b.size_per_item, j⟩
        rw [hbsz]
      · rw [sget_set_ne hji] at hslj
        obtain ⟨kj, vj, hslE, hmapj⟩ := hg.slot2idx b hbmem j sl hslj
        have hkjk : kj ≠ k := by
          intro hc2
          subst hc2
          rw [hmk] at hmapj
          have h3 := (Ref.mk.injEq _ _ _ _).mp (Option.some.inj hmapj)
          exact hji h3.2.symm
        have hkjmk : kj ≠ mk := by
          intro hc2
          subst hc2
          rw [hmapmk] at hmapj
          have h3 := (Ref.mk.injEq _ _ _ _).mp (Option.some.inj hmapj)
          obtain ⟨h4, h5⟩ := h3
          omega
        refine ⟨kj, vj, hslE, ?_⟩
        show mapIns (mapDel s.map k) mk ⟨f, i⟩ kj = _
        rw [mapIns_ne _ _ hkjmk, mapDel_ne _ hkjk]
        exact hmapj
    · obtain ⟨kj, vj, hslE, hmapj⟩ := hg.slot2idx c hcf j sl hslj
      have hkjk : kj ≠ k := by
        intro hc2
        subst hc2
        rw [hmk] at hmapj
        have h3 := (Ref.mk.injEq _ _ _ _).mp (Option.some.inj hmapj)
        exact hcne h3.1.symm
      have hkjmk : kj ≠ mk := by
        intro hc2
        subst hc2
        rw [hmapmk] at hmapj
        have h3 := (Ref.mk.injEq _ _ _ _).mp (Option.some.inj hmapj)
        exact hcne (h3.1.symm.trans hbsz)
      refine ⟨kj, vj, hslE, ?_⟩
      show mapIns (mapDel s.map k) mk ⟨f, i⟩ kj = _
      rw [mapIns_ne _ _ hkjmk, mapDel_ne _ hkjk]
      exact hmapj
  · intro k2 f2 j hmj
    have hmj2 : mapIns (mapDel s.map k) mk ⟨f, i⟩ k2 = some ⟨f2, j⟩ := hmj
    by_cases hk2mk : k2 = mk
    · subst hk2mk
      rw [mapIns_self] at hmj2
      have h3 := (Ref.mk.injEq _ _ _ _).mp (Option.some.inj hmj2)
      obtain ⟨h4, h5⟩ := h3
      subst h4
      subst h5
      have hilt : i < b.slots.length - 1 := by
        simp only [CacheLevel1.num_items] at hlast
        omega
      refine ⟨{ b with slots := (b.slots.set i ⟨ck.enc k2, cv.enc mv⟩).take (b.slots.length - 1) }, mem_updateLevel1_self hBsz (by rw [hlk]; rfl), hbsz, ⟨ck.enc k2, cv.enc mv⟩, ?_, ck.dec_enc k2⟩
      show ((b.slots.set i ⟨ck.enc k2, cv.enc mv⟩).take (b.slots.length - 1)).get? i = _
      rw [sget_take hilt, sget_set_self hilen]
    · rw [mapIns_ne _ _ hk2mk] at hmj2
      by_cases hk2 : k2 = k
      · subst hk2
        rw [mapDel_self] at hmj2
        cases hmj2
      · rw [mapDel_ne _ hk2] at hmj2
        obtain ⟨b0, hb0m, hb0sz, sl0, hsl0, hdec0⟩ :=
          hg.idx2slot k2 f2 j hmj2
        by_cases hf2 : f2 = f
        · subst hf2
          have hb0b : b0 = b :=
            nodup_size_unique hg.nd_sizes hb0m hbmem (by rw [hb0sz, hbsz])
          rw [hb0b] at hsl0
          have hji : j ≠ i := by
            intro hc2
            subst hc2
            exact hk2 (good_key_unique hg hmj2 hmk)
          have hjlast : j ≠ b.slots.length - 1 := by
            intro hc2
            subst hc2
            apply hk2mk
            apply good_key_unique hg hmj2
            rw [hmapmk, hbsz]
          have hjlt : j < b.slots.length - 1 := by
            have h2 := sget_some_lt hsl0
            omega
          refine ⟨{ b with slots := (b.slots.set i ⟨ck.enc mk, cv.enc mv⟩).take (b.slots.length - 1) }, mem_updateLevel1_self hBsz (by rw [hlk]; rfl), hbsz, sl0, ?_, hdec0⟩
          show ((b.slots.set i ⟨ck.enc mk, cv.enc mv⟩).take (b.slots.length - 1)).get? j = some sl0
          rw [sget_take hjlt, sget_set_ne hji]
          exact hsl0
        · exact ⟨b0, mem_updateLevel1_of_ne hb0m (by rw [hb0sz]; exact hf2), hb0sz, sl0, hsl0, hdec0⟩

theorem good_remove {K V : Type} [DecidableEq K] {ck : Codec K}
    {cv : Codec V} {s : FolderCache K} (hg : GoodFolder ck cv s) (k : K) :
    ∃ s', FolderCache.remove ck s k = (.ok (), s') ∧ GoodFolder ck cv s' := by
  cases hmk : s.map k with
  | none =>
    refine ⟨s, ?_, hg⟩
    unfold FolderCache.remove
    rw [hmk]
  | some old =>
    obtain ⟨f, i⟩ := old
    obtain ⟨b, hlk, hbmem, hbsz, v0, hsl⟩ := good_access hg hmk
    have hilen : i < b.slots.length := sget_some_lt hsl
    by_cases hlast : i = b.num_items - 1
    · -- removing the last live slot
      have hsw := swap_remove_last ck b hlast
      refine ⟨⟨updateLevel1 s.lvl2 f { b with slots := b.slots.take (b.num_items - 1) }, mapDel s.map k⟩, ?_, good_swapout_last hg hmk hlk hlast⟩
      unfold FolderCache.remove
      rw [hmk]
      simp only []
      unfold lvl2Remove
      simp only []
      rw [hlk]
      simp only []
      rw [hsw]
    · -- swap-removal: the final record migrates into slot i
      obtain ⟨mk, mv, hlastq, hmapmk, hsw⟩ := swap_remove_mid hg hbmem hilen hlast
      refine ⟨⟨updateLevel1 s.lvl2 f { b with slots := (b.slots.set i ⟨ck.enc mk, cv.enc mv⟩).take (b.slots.length - 1) }, mapIns (mapDel s.map k) mk ⟨f, i⟩⟩, ?_, good_swapout_mid hg hmk hlk hilen hlast hmapmk⟩
      unfold FolderCache.remove
      rw [hmk]
      simp only []
      unfold lvl2Remove
      simp only []
      rw [hlk]
      simp only []
      rw [hsw]

/-- Pointwise-equal index maps give the same folder invariant. -/
theorem good_congr {K V : Type} [DecidableEq K] {ck : Codec K}
    {cv : Codec V} {ls : List CacheLevel1} {m1 m2 : K → Option Ref}
    (hm : ∀ k, m1 k = m2 k) (hg : GoodFolder ck cv ⟨ls, m1⟩) :
    GoodFolder ck cv ⟨ls, m2⟩ := by
  refine ⟨hg.nd_sizes, ?_, ?_⟩
  · intro c hc j sl hslj
    obtain ⟨kj, vj, hslE, hmapj⟩ := hg.slot2idx c hc j sl hslj
    refine ⟨kj, vj, hslE, ?_⟩
    show m2 kj = _
    rw [← hm kj]
    exact hmapj
  · intro k2 f2 j hmj
    refine hg.idx2slot k2 f2 j ?_
    show m1 k2 = _
    rw [hm k2]
    exact hmj

theorem mapIns_mapDel_cancel {K : Type} [DecidableEq K]
    (m : K → Option Ref) (k : K) (r : Ref) (k' : K) :
    mapIns (mapDel m k) k r k' = mapIns m k r k' := by
  by_cases h : k' = k
  · subst h
    rw [mapIns_self, mapIns_self]
  · rw [mapIns_ne _ _ h, mapIns_ne _ _ h, mapDel_ne _ h]

theorem mapIns_comm_ne {K : Type} [DecidableEq K] (m : K → Option Ref)
    {k1 k2 : K} (r1 r2 : Ref) (h : k1 ≠ k2) (k' : K) :
    mapIns (mapIns m k1 r1) k2 r2 k' = mapIns (mapIns m k2 r2) k1 r1 k' := by
  by_cases h1 : k' = k1
  · subst h1
    rw [mapIns_ne _ _ h, mapIns_self, mapIns_self]
  · rw [mapIns_ne _ _ h1]
    by_cases h2 : k' = k2
    · subst h2
      rw [mapIns_self, mapIns_self]
    · rw [mapIns_ne _ _ h2, mapIns_ne _ _ h2, mapIns_ne _ _ h1]

/-- The ensure-then-append step, packaged with names for the ensured
bucket, the appended bucket and the resulting file list. -/
theorem ensure_add_ex {files : List CacheLevel1}
    (hnd : (files.map CacheLevel1.size_per_item).Nodup) (F : Nat)
    (kser vser : List Nat) :
    ∃ (E B2 : CacheLevel1) (files2 : List CacheLevel1),
      (ensureLevel1 files F).2 = E ∧
      ((ensureLevel1 files F).2.add kser vser).1 = B2 ∧
      ((ensureLevel1 files F).2.add kser vser).2 = E.slots.length ∧
      updateLevel1 (ensureLevel1 files F).1 F
        ((ensureLevel1 files F).2.add kser vser).1 = files2 ∧
      B2.size_per_item = F ∧
      B2.slots = E.slots ++ [⟨kser, vser⟩] ∧
      lookupLevel1 files2 F = some B2 ∧
      (∀ sz : Nat, sz ≠ F → lookupLevel1 files2 sz = lookupLevel1 files sz) ∧
      (files2.map CacheLevel1.size_per_item).Nodup ∧
      (∀ c ∈ files2, c = B2 ∨ (c ∈ files ∧ c.size_per_item ≠ F)) ∧
      (∀ c ∈ files, c.size_per_item ≠ F → c ∈ files2) ∧
      ((lookupLevel1 files F = some E) ∨
        (lookupLevel1 files F = none ∧ E.slots = [])) := by
  obtain ⟨h1, h2, h3, h4, h5, h6, h7, h8, h9⟩ := ensure_add_spec hnd F kser vser
  exact ⟨(ensureLevel1 files F).2, ((ensureLevel1 files F).2.add kser vser).1,
    updateLevel1 (ensureLevel1 files F).1 F
      ((ensureLevel1 files F).2.add kser vser).1,
    rfl, rfl, h2, rfl, h1, h3, h4, h5, h6, h7, h8, h9⟩

/-- The fresh-key add path of FolderCache::insert (CacheLevel2::add with
any bucket size F): the invariant is preserved, the new key reads back
the inserted value, and every other key is untouched. -/
theorem good_add_core {K V : Type} [DecidableEq K] {ck : Codec K}
    {cv : Codec V} {s : FolderCache K} (hg : GoodFolder ck cv s) {k : K}
    (hmk : s.map k = none) (v : V) (F : Nat) :
    GoodFolder ck cv ⟨updateLevel1 (ensureLevel1 s.lvl2 F).1 F ((ensureLevel1 s.lvl2 F).2.add (ck.enc k) (cv.enc v)).1, mapIns s.map k ⟨F, ((ensureLevel1 s.lvl2 F).2.add (ck.enc k) (cv.enc v)).2⟩⟩ ∧
    FolderCache.get cv ⟨updateLevel1 (ensureLevel1 s.lvl2 F).1 F ((ensureLevel1 s.lvl2 F).2.add (ck.enc k) (cv.enc v)).1, mapIns s.map k ⟨F, ((ensureLevel1 s.lvl2 F).2.add (ck.enc k) (cv.enc v)).2⟩⟩ k = .ok v ∧
    ∀ k' : K, k' ≠ k →
      mapIns s.map k ⟨F, ((ensureLevel1 s.lvl2 F).2.add (ck.enc k) (cv.enc v)).2⟩ k' = s.map k' ∧
      FolderCache.get cv ⟨updateLevel1 (ensureLevel1 s.lvl2 F).1 F ((ensureLevel1 s.lvl2 F).2.add (ck.enc k) (cv.enc v)).1, mapIns s.map k ⟨F, ((ensureLevel1 s.lvl2 F).2.add (ck.enc k) (cv.enc v)).2⟩⟩ k' = FolderCache.get cv s k' := by
  obtain ⟨E, B2, files2, hEe, hBe, hLe, hFe, hBsz, hBslots, hlkF, hlkNe, hnd2,
    hmem2, hmemKeep, hbase⟩ := ensure_add_ex hg.nd_sizes F (ck.enc k) (cv.enc v)
  rw [hFe, hLe]
  refine ⟨⟨hnd2, ?_, ?_⟩, ?_, ?_⟩
  · intro c hc j sl hslj
    rcases hmem2 c hc with hcB | ⟨hcf, hcne⟩
    · subst hcB
      rw [hBslots] at hslj
      have hjlen := sget_some_lt hslj
      rw [List.length_append] at hjlen
      rcases Nat.lt_or_ge j E.slots.length with hjl | hjg
      · rw [sget_append_left hjl] at hslj
        rcases hbase with hlkE | ⟨hnone, hempty⟩
        · obtain ⟨hEmem, hEsz⟩ := lookupLevel1_eq_some hlkE
          obtain ⟨kj, vj, hslE, hmapj⟩ := hg.slot2idx E hEmem j sl hslj
          have hkj : kj ≠ k := by
            intro hc2
            subst hc2
            rw [hmk] at hmapj
            exact Option.noConfusion hmapj
          refine ⟨kj, vj, hslE, ?_⟩
          show mapIns s.map k ⟨F, E.slots.length⟩ kj = _
          rw [mapIns_ne _ _ hkj, hBsz]
          rw [hEsz] at hmapj
          exact hmapj
        · rw [hempty] at hjl
          simp at hjl
      · have hje : j = E.slots.length := by
          simp only [List.length_singleton] at hjlen
          omega
        subst hje
        rw [sget_append_self] at hslj
        have hsl2 : sl = ⟨ck.enc k, cv.enc v⟩ := (Option.some.inj hslj).symm
        refine ⟨k, v, hsl2, ?_⟩
        show mapIns s.map k ⟨F, E.slots.length⟩ k = _
        rw [mapIns_self, hBsz]
    · obtain ⟨kj, vj, hslE, hmapj⟩ := hg.slot2idx c hcf j sl hslj
      have hkj : kj ≠ k := by
        intro hc2
        subst hc2
        rw [hmk] at hmapj
        exact Option.noConfusion hmapj
      refine ⟨kj, vj, hslE, ?_⟩
      show mapIns s.map k ⟨F, E.slots.length⟩ kj = _
      rw [mapIns_ne _ _ hkj]
      exact hmapj
  · intro k2 f2 j hmj
    have hmj2 : mapIns s.map k ⟨F, E.slots.length⟩ k2 = some ⟨f2, j⟩ := hmj
    by_cases hk2 : k2 = k
    · subst hk2
      rw [mapIns_self] at hmj2
      have h3 := (Ref.mk.injEq _ _ _ _).mp (Option.some.inj hmj2)
      obtain ⟨h4, h5⟩ := h3
      refine ⟨B2, (lookupLevel1_eq_some hlkF).1, hBsz.trans h4, ⟨ck.enc k2, cv.enc v⟩, ?_, ck.dec_enc k2⟩
      rw [hBslots, ← h5]
      exact sget_append_self _ _
    · rw [mapIns_ne _ _ hk2] at hmj2
      obtain ⟨b0, hb0m, hb0sz, sl0, hsl0, hdec0⟩ := hg.idx2slot k2 f2 j hmj2
      have hlk0 : lookupLevel1 s.lvl2 f2 = some b0 := by
        have h2 := lookupLevel1_of_mem_nodup hg.nd_sizes hb0m
        rw [hb0sz] at h2
        exact h2
      by_cases hf2 : f2 = F
      · rcases hbase with hlkE | ⟨hnone, hempty⟩
        · have hb0E : b0 = E := by
            rw [hf2] at hlk0
            rw [hlk0] at hlkE
            exact Option.some.inj hlkE
          have hjl : j < E.slots.length := by
            rw [← hb0E]
            exact sget_some_lt hsl0
          refine ⟨B2, (lookupLevel1_eq_some hlkF).1, hBsz.trans hf2.symm, sl0, ?_, hdec0⟩
          rw [hBslots, sget_append_left hjl, ← hb0E]
          exact hsl0
        · rw [hf2] at hlk0
          rw [hlk0] at hnone
          exact Option.noConfusion hnone
      · exact ⟨b0, hmemKeep b0 hb0m (by rw [hb0sz]; exact hf2), hb0sz, sl0, hsl0, hdec0⟩
  · show FolderCache.get cv ⟨files2, mapIns s.map k ⟨F, E.slots.length⟩⟩ k = .ok v
    unfold FolderCache.get
    simp only []
    rw [mapIns_self]
    simp only []
    unfold lvl2GetV
    simp only []
    rw [hlkF]
    simp only []
    have hB2L : B2.slots.get? E.slots.length = some ⟨ck.enc k, cv.enc v⟩ := by
      rw [hBslots]
      exact sget_append_self _ _
    rw [hB2L]
    simp only []
    rw [cv.dec_enc]
  · intro k' hk'
    have hmapP : mapIns s.map k ⟨F, E.slots.length⟩ k' = s.map k' :=
      mapIns_ne _ _ hk'
    refine ⟨hmapP, ?_⟩
    show FolderCache.get cv ⟨files2, mapIns s.map k ⟨F, E.slots.length⟩⟩ k' =
      FolderCache.get cv s k'
    unfold FolderCache.get
    simp only []
    rw [hmapP]
    cases hmk' : s.map k' with
    | none => rfl
    | some r =>
      simp only []
      obtain ⟨f2, j⟩ := r
      obtain ⟨b0, hb0m, hb0sz, sl0, hsl0, hdec0⟩ := hg.idx2slot k' f2 j hmk'
      unfold lvl2GetV
      simp only []
      have hlk0 : lookupLevel1 s.lvl2 f2 = some b0 := by
        have h2 := lookupLevel1_of_mem_nodup hg.nd_sizes hb0m
        rw [hb0sz] at h2
        exact h2
      by_cases hf2 : f2 = F
      · rcases hbase with hlkE | ⟨hnone, hempty⟩
        · rw [hf2] at hlk0
          have hb0E : b0 = E := by
            rw [hlk0] at hlkE
            exact Option.some.inj hlkE
          have hjl : j < E.slots.length := by
            rw [← hb0E]
            exact sget_some_lt hsl0
          have hB2j : B2.slots.get? j = some sl0 := by
            rw [hBslots, sget_append_left hjl, ← hb0E]
            exact hsl0
          rw [hf2, hlkF, hlk0]
          simp only []
          rw [hB2j, hsl0]
        · rw [hf2] at hlk0
          rw [hlk0] at hnone
          exact Option.noConfusion hnone
      · rw [hlkNe f2 hf2]

/-- FolderCache::insert on a key absent from the index: succeeds, keeps
the invariant, reads back the value, leaves every other key untouched. -/
theorem good_insert_fresh {K V : Type} [DecidableEq K] {ck : Codec K}
    {cv : Codec V} {s : FolderCache K} (hg : GoodFolder ck cv s) {k : K}
    (hmk : s.map k = none) (v : V) :
    ∃ s', FolderCache.insert ck cv s k v = (.ok (), s') ∧
      GoodFolder ck cv s' ∧ FolderCache.get cv s' k = .ok v ∧
      ∀ k' : K, k' ≠ k → s'.map k' = s.map k' ∧
        FolderCache.get cv s' k' = FolderCache.get cv s k' := by
  have hcore := good_add_core hg hmk v
    (bucket_size ((ck.enc k).length + (cv.enc v).length + 16))
  refine ⟨⟨updateLevel1 (ensureLevel1 s.lvl2 (bucket_size ((ck.enc k).length + (cv.enc v).length + 16))).1 (bucket_size ((ck.enc k).length + (cv.enc v).length + 16)) ((ensureLevel1 s.lvl2 (bucket_size ((ck.enc k).length + (cv.enc v).length + 16))).2.add (ck.enc k) (cv.enc v)).1, mapIns s.map k ⟨bucket_size ((ck.enc k).length + (cv.enc v).length + 16), ((ensureLevel1 s.lvl2 (bucket_size ((ck.enc k).length + (cv.enc v).length + 16))).2.add (ck.enc k) (cv.enc v)).2⟩⟩, ?_, hcore.1, hcore.2.1, hcore.2.2⟩
  unfold FolderCache.insert
  rw [hmk]
  rfl

theorem mapIns_swap_ins {K : Type} [DecidableEq K] (m : K → Option Ref)
    {k mk : K} (h : mk ≠ k) (r1 r2 : Ref) (k' : K) :
    mapIns (mapIns (mapDel m k) mk r1) k r2 k' =
      mapIns (mapIns m k r2) mk r1 k' := by
  by_cases h1 : k' = k
  · subst h1
    rw [mapIns_self, mapIns_ne _ _ (Ne.symm h), mapIns_self]
  · rw [mapIns_ne _ _ h1]
    by_cases h2 : k' = mk
    · subst h2
      rw [mapIns_self, mapIns_self]
    · rw [mapIns_ne _ _ h2, mapIns_ne _ _ h2, mapIns_ne _ _ h1, mapDel_ne _ h1]

/-- The in-place arm of CacheLevel2::overwrite: rewriting the record of k
over its own slot keeps the folder invariant (the index is untouched). -/
theorem good_overwrite_core {K V : Type} [DecidableEq K] {ck : Codec K}
    {cv : Codec V} {s : FolderCache K} (hg : GoodFolder ck cv s) {k : K}
    {f i : Nat} (hmk : s.map k = some ⟨f, i⟩) {b : CacheLevel1}
    (hlk : lookupLevel1 s.lvl2 f = some b) (v : V) :
    GoodFolder ck cv ⟨updateLevel1 s.lvl2 f (b.overwrite i (ck.enc k) (cv.enc v)), s.map⟩ := by
  obtain ⟨hbmem, hbsz⟩ := lookupLevel1_eq_some hlk
  obtain ⟨b2, hlk2, hb2mem, hb2sz, v0, hsl2⟩ := good_access hg hmk
  rw [hlk] at hlk2
  have hb2b : b = b2 := Option.some.inj hlk2
  rw [← hb2b] at hsl2
  have hilen : i < b.slots.length := sget_some_lt hsl2
  have hOsz : (b.overwrite i (ck.enc k) (cv.enc v)).size_per_item = f := hbsz
  refine ⟨?_, ?_, ?_⟩
  · show ((updateLevel1 s.lvl2 f _).map CacheLevel1.size_per_item).Nodup
    rw [sizes_updateLevel1 hOsz]
    exact hg.nd_sizes
  · intro c hc j sl hslj
    rcases mem_updateLevel1 hc with hcB | ⟨hcf, hcne⟩
    · subst hcB
      have hslj2 : (b.slots.set i ⟨ck.enc k, cv.enc v⟩).get? j = some sl := hslj
      by_cases hji : j = i
      · subst hji
        rw [sget_set_self hilen] at hslj2
        refine ⟨k, v, (Option.some.inj hslj2).symm, ?_⟩
        show s.map k = _
        rw [hmk, hOsz]
      · rw [sget_set_ne hji] at hslj2
        obtain ⟨kj, vj, hslE, hmapj⟩ := hg.slot2idx b hbmem j sl hslj2
        refine ⟨kj, vj, hslE, ?_⟩
        show s.map kj = _
        rw [hOsz]
        rw [hbsz] at hmapj
        exact hmapj
    · obtain ⟨kj, vj, hslE, hmapj⟩ := hg.slot2idx c hcf j sl hslj
      exact ⟨kj, vj, hslE, hmapj⟩
  · intro k2 f2 j hmj
    have hmj2 : s.map k2 = some ⟨f2, j⟩ := hmj
    obtain ⟨b0, hb0m, hb0sz, sl0, hsl0, hdec0⟩ := hg.idx2slot k2 f2 j hmj2
    by_cases hf2 : f2 = f
    · have hlk0 : lookupLevel1 s.lvl2 f = some b0 := by
        have h2 := lookupLevel1_of_mem_nodup hg.nd_sizes hb0m
        rw [hb0sz, hf2] at h2
        exact h2
      rw [hlk] at hlk0
      have hb0b : b0 = b := (Option.some.inj hlk0).symm
      rw [hb0b] at hsl0
      by_cases hji : j = i
      · subst hji
        have hk2 : k2 = k := by
          apply good_key_unique hg hmj2
          rw [hmk, hf2]
        subst hk2
        refine ⟨b.overwrite j (ck.enc k2) (cv.enc v),
          mem_updateLevel1_self hOsz (by rw [hlk]; rfl), by rw [hOsz, hf2], ⟨ck.enc k2, cv.enc v⟩, ?_, ck.dec_enc k2⟩
        show (b.slots.set j ⟨ck.enc k2, cv.enc v⟩).get? j = _
        rw [sget_set_self hilen]
      · refine ⟨b.overwrite i (ck.enc k) (cv.enc v),
          mem_updateLevel1_self hOsz (by rw [hlk]; rfl), by rw [hOsz, hf2], sl0, ?_, hdec0⟩
        show (b.slots.set i ⟨ck.enc k, cv.enc v⟩).get? j = _
        rw [sget_set_ne hji]
        exact hsl0
    · exact ⟨b0, mem_updateLevel1_of_ne hb0m (by rw [hb0sz]; exact hf2), hb0sz, sl0, hsl0, hdec0⟩

/-- FolderCache::insert always succeeds and preserves the folder
invariant, whichever of the three paths (fresh add, in-place overwrite,
cross-bucket overwrite with swap-removal) it takes. -/
theorem good_insert {K V : Type} [DecidableEq K] {ck : Codec K}
    {cv : Codec V} {s : FolderCache K} (hg : GoodFolder ck cv s) (k : K)
    (v : V) :
    ∃ s', FolderCache.insert ck cv s k v = (.ok (), s') ∧
      GoodFolder ck cv s' := by
  cases hmk : s.map k with
  | none =>
    obtain ⟨s', he, hgood, _, _⟩ := good_insert_fresh hg hmk v
    exact ⟨s', he, hgood⟩
  | some old =>
    obtain ⟨f, i⟩ := old
    obtain ⟨b, hlk, hbmem, hbsz, v0, hsl⟩ := good_access hg hmk
    have hilen : i < b.slots.length := sget_some_lt hsl
    by_cases hsame : bucket_size ((ck.enc k).length + (cv.enc v).length + 16) = f
    · -- new record fits the old bucket: in-place overwrite
      refine ⟨_, ?_, good_overwrite_core hg hmk hlk v⟩
      unfold FolderCache.insert
      rw [hmk]
      simp only []
      unfold lvl2Overwrite
      simp only []
      rw [hsame, if_pos rfl, hlk]
    · by_cases hlast : i = b.num_items - 1
      · -- cross-bucket overwrite, old slot was the last one
        have hsw := swap_remove_last ck b hlast
        have hmid := good_swapout_last hg hmk hlk hlast
        have hmidnone : mapDel s.map k k = none := mapDel_self _ _
        have hcore := good_add_core hmid hmidnone v
          (bucket_size ((ck.enc k).length + (cv.enc v).length + 16))
        refine ⟨_, ?_, good_congr (fun k' => mapIns_mapDel_cancel s.map k _ k') hcore.1⟩
        unfold FolderCache.insert
        rw [hmk]
        simp only []
        unfold lvl2Overwrite
        simp only []
        rw [if_neg hsame, hlk]
        simp only []
        rw [hsw]
      · -- cross-bucket overwrite, another record migrates into the slot
        obtain ⟨mk, mv, hlastq, hmapmk, hsw⟩ := swap_remove_mid hg hbmem hilen hlast
        have hmkk : mk ≠ k := by
          intro hc2
          subst hc2
          rw [hmk] at hmapmk
          have h3 := (Ref.mk.injEq _ _ _ _).mp (Option.some.inj hmapmk)
          simp only [CacheLevel1.num_items] at hlast
          exact hlast h3.2
        have hmid := @good_swapout_mid K V _ ck cv s hg k f i hmk b hlk hilen hlast mk mv hmapmk
        have hmidnone : mapIns (mapDel s.map k) mk ⟨f, i⟩ k = none := by
          rw [mapIns_ne _ _ (Ne.symm hmkk), mapDel_self]
        have hcore := good_add_core hmid hmidnone v
          (bucket_size ((ck.enc k).length + (cv.enc v).length + 16))
        refine ⟨_, ?_, good_congr (fun k' => mapIns_swap_ins s.map hmkk _ _ k') hcore.1⟩
        unfold FolderCache.insert
        rw [hmk]
        simp only []
        unfold lvl2Overwrite
        simp only []
        rw [if_neg hsame, hlk]
        simp only []
        rw [hsw]

theorem good_cleared {K V : Type} [DecidableEq K] (ck : Codec K)
    (cv : Codec V) : GoodFolder ck cv (FolderCache.cleared K) := by
  refine ⟨List.nodup_nil, ?_, ?_⟩
  · intro c hc
    exact absurd hc (List.not_mem_nil c)
  · intro k2 f2 j hmj
    exact Option.noConfusion hmj

theorem good_runF {K V : Type} [DecidableEq K] {ck : Codec K}
    {cv : Codec V} (ops : List (FOp K V)) {s : FolderCache K}
    (hg : GoodFolder ck cv s) :
    GoodFolder ck cv (runF ck cv s ops) := by
  induction ops generalizing s with
  | nil => exact hg
  | cons op rest ih =>
    cases op with
    | ins k v =>
      obtain ⟨s', he, hgood⟩ := good_insert hg k v
      show GoodFolder ck cv (runF ck cv (FolderCache.insert ck cv s k v).2 rest)
      rw [he]
      exact ih hgood
    | rem k =>
      obtain ⟨s', he, hgood⟩ := good_remove hg k
      show GoodFolder ck cv (runF ck cv (FolderCache.remove ck s k).2 rest)
      rw [he]
      exact ih hgood

/-- C3: after any sequence of folder-backend insert/remove operations
starting from the cleared folder, every key in the in-memory index maps
to a slot (S, i) with i < num_items of the bucket file of size S, and
decoding the key bytes stored in that slot yields exactly the key - in
particular after the swap-removals and cross-bucket overwrites occurring
inside the sequence, whose re-pointing of moved records this invariant
subsumes. -/
theorem c3_index_consistency {K V : Type} [DecidableEq K] (ck : Codec K)
    (cv : Codec V) (ops : List (FOp K V)) (k : K) (f i : Nat)
    (hmap : (runF ck cv (FolderCache.cleared K) ops).map k = some ⟨f, i⟩) :
    ∃ b ∈ (runF ck cv (FolderCache.cleared K) ops).lvl2,
      b.size_per_item = f ∧ i < b.num_items ∧
      ∃ sl : Slot, b.slots.get? i = some sl ∧ ck.dec sl.kser = some k := by
  have hgood := good_runF ops (good_cleared ck cv)
  obtain ⟨b, hbm, hbsz, sl, hsl, hdec⟩ := hgood.idx2slot k f i hmap
  exact ⟨b, hbm, hbsz, sget_some_lt hsl, sl, hsl, hdec⟩

theorem c3_witness :
    ((runF natCodec natCodec (FolderCache.cleared Nat)
        [FOp.ins 7 70, FOp.ins 8 80, FOp.rem 7]).map 8 = some ⟨64, 0⟩) ∧
    ∃ b ∈ (runF natCodec natCodec (FolderCache.cleared Nat)
        [FOp.ins 7 70, FOp.ins 8 80, FOp.rem 7]).lvl2,
      b.size_per_item = 64 ∧ 0 < b.num_items ∧
      ∃ sl : Slot, b.slots.get? 0 = some sl ∧ natCodec.dec sl.kser = some 8 :=
  ⟨by rfl, c3_index_consistency natCodec natCodec
    [FOp.ins 7 70, FOp.ins 8 80, FOp.rem 7] 8 64 0 (by rfl)⟩

/-- A sequence of inserts of pairwise-distinct fresh keys: the invariant
holds afterwards, every inserted pair reads back, and untouched keys keep
their index entry and their read result. -/
theorem runF_fresh_inserts {K V : Type} [DecidableEq K] {ck : Codec K}
    {cv : Codec V} (ps : List (K × V)) {s : FolderCache K}
    (hg : GoodFolder ck cv s) (hnd : (ps.map Prod.fst).Nodup)
    (hfresh : ∀ p ∈ ps, s.map p.1 = none) :
    GoodFolder ck cv (runF ck cv s (ps.map fun p => FOp.ins p.1 p.2)) ∧
    (∀ p ∈ ps, FolderCache.get cv
      (runF ck cv s (ps.map fun p => FOp.ins p.1 p.2)) p.1 = .ok p.2) ∧
    (∀ k' : K, (∀ p ∈ ps, k' ≠ p.1) →
      (runF ck cv s (ps.map fun p => FOp.ins p.1 p.2)).map k' = s.map k' ∧
      FolderCache.get cv (runF ck cv s (ps.map fun p => FOp.ins p.1 p.2)) k' =
        FolderCache.get cv s k') := by
  induction ps generalizing s with
  | nil =>
    exact ⟨hg, fun p hp => absurd hp (List.not_mem_nil p),
      fun k' _ => ⟨rfl, rfl⟩⟩
  | cons p rest ih =>
    obtain ⟨k, v⟩ := p
    simp only [List.map_cons, List.nodup_cons] at hnd
    obtain ⟨hk_notin, hnd'⟩ := hnd
    obtain ⟨s1, hins, hg1, hget1, hpres1⟩ :=
      good_insert_fresh hg (hfresh (k, v) (List.mem_cons_self _ _)) v
    have hrun : runF ck cv s (((k, v) :: rest).map fun p => FOp.ins p.1 p.2) =
        runF ck cv s1 (rest.map fun p => FOp.ins p.1 p.2) := by
      show runF ck cv (FolderCache.insert ck cv s k v).2
        (rest.map fun p => FOp.ins p.1 p.2) = _
      rw [hins]
    have hfresh' : ∀ q ∈ rest, s1.map q.1 = none := by
      intro q hq
      have hqk : q.1 ≠ k := by
        intro hc
        exact hk_notin (List.mem_map.mpr ⟨q, hq, hc⟩)
      rw [(hpres1 q.1 hqk).1]
      exact hfresh q (List.mem_cons_of_mem _ hq)
    obtain ⟨hgR, hgetR, hpresR⟩ := ih hg1 hnd' hfresh'
    rw [hrun]
    refine ⟨hgR, ?_, ?_⟩
    · intro q hq
      rcases List.mem_cons.mp hq with hq1 | hq1
      · subst hq1
        have hkrest : ∀ r ∈ rest, (k, v).1 ≠ r.1 := by
          intro r hr hc
          exact hk_notin (List.mem_map.mpr ⟨r, hr, hc.symm⟩)
        rw [(hpresR (k, v).1 hkrest).2]
        exact hget1
      · exact hgetR q hq1
    · intro k' hk'
      have hk'rest : ∀ r ∈ rest, k' ≠ r.1 := by
        intro r hr
        exact hk' r (List.mem_cons_of_mem _ hr)
      have hk'k : k' ≠ k := hk' (k, v) (List.mem_cons_self _ _)
      obtain ⟨hm1, hg2⟩ := hpresR k' hk'rest
      obtain ⟨hm0, hg0⟩ := hpres1 k' hk'k
      exact ⟨hm1.trans hm0, hg2.trans hg0⟩

/-- The slot walk of load_to_hashmap over a list of slots whose decoded
keys the index maps to the walked positions. -/
theorem loadSlots_spec {K : Type} [DecidableEq K] {ck : Codec K}
    {s : FolderCache K} {F : Nat} (L : List Slot) (t : Nat)
    (m : K → Option Ref)
    (hspec : ∀ (j : Nat) (sl : Slot), L.get? j = some sl →
      ∃ kj : K, ck.dec sl.kser = some kj ∧ s.map kj = some ⟨F, t + j⟩) :
    ∃ m', loadSlots ck F L t m = .ok m' ∧
      ∀ k : K,
        ((∃ (j : Nat) (sl : Slot), L.get? j = some sl ∧
            ck.dec sl.kser = some k) → m' k = s.map k) ∧
        ((∀ (j : Nat) (sl : Slot), L.get? j = some sl →
            ck.dec sl.kser ≠ some k) → m' k = m k) := by
  induction L generalizing t m with
  | nil =>
    refine ⟨m, rfl, fun k => ⟨?_, fun _ => rfl⟩⟩
    rintro ⟨j, sl, hj, _⟩
    simp at hj
  | cons sl0 rest ih =>
    obtain ⟨k0, hdec0, hmap0⟩ := hspec 0 sl0 rfl
    rw [Nat.add_zero] at hmap0
    have hspec' : ∀ (j : Nat) (sl : Slot), rest.get? j = some sl →
        ∃ kj : K, ck.dec sl.kser = some kj ∧
          s.map kj = some ⟨F, (t + 1) + j⟩ := by
      intro j sl hj
      obtain ⟨kj, hd, hm⟩ := hspec (j + 1) sl hj
      have he : t + (j + 1) = (t + 1) + j := by omega
      rw [he] at hm
      exact ⟨kj, hd, hm⟩
    obtain ⟨m', hrun, hcl⟩ := ih (t + 1) (mapIns m k0 ⟨F, t⟩) hspec'
    refine ⟨m', ?_, ?_⟩
    · unfold loadSlots
      rw [hdec0]
      simp only []
      exact hrun
    · intro k
      refine ⟨?_, ?_⟩
      · rintro ⟨j, sl, hj, hdk⟩
        cases j with
        | zero =>
          have hsl : sl = sl0 := (Option.some.inj hj).symm
          rw [hsl, hdec0] at hdk
          have hkk0 : k0 = k := Option.some.inj hdk
          subst hkk0
          have hnorest : ∀ (j2 : Nat) (sl2 : Slot), rest.get? j2 = some sl2 →
              ck.dec sl2.kser ≠ some k0 := by
            intro j2 sl2 hj2 hd2
            obtain ⟨kj, hd3, hm3⟩ := hspec' j2 sl2 hj2
            rw [hd2] at hd3
            have hkj : kj = k0 := (Option.some.inj hd3).symm
            subst hkj
            rw [hmap0] at hm3
            have h4 := (Ref.mk.injEq _ _ _ _).mp (Option.some.inj hm3)
            omega
          rw [(hcl k0).2 hnorest, mapIns_self, hmap0]
        | succ j2 =>
          exact (hcl k).1 ⟨j2, sl, hj, hdk⟩
      · intro hnone
        have hk0 : k ≠ k0 := by
          intro hc
          subst hc
          exact hnone 0 sl0 rfl hdec0
        rw [(hcl k).2 (fun j2 sl2 hj2 => hnone (j2 + 1) sl2 hj2),
          mapIns_ne _ _ hk0]

/-- Walking one bucket of a well-formed folder records exactly the index
entries pointing into that bucket. -/
theorem loadSlots_bucket {K V : Type} [DecidableEq K] {ck : Codec K}
    {cv : Codec V} {s : FolderCache K} (hg : GoodFolder ck cv s)
    {b : CacheLevel1} (hb : b ∈ s.lvl2) (m : K → Option Ref) :
    ∃ m', loadSlots ck b.size_per_item b.slots 0 m = .ok m' ∧
      ∀ k : K,
        ((∃ j : Nat, s.map k = some ⟨b.size_per_item, j⟩) → m' k = s.map k) ∧
        ((∀ j : Nat, s.map k ≠ some ⟨b.size_per_item, j⟩) → m' k = m k) := by
  have hspec : ∀ (j : Nat) (sl : Slot), b.slots.get? j = some sl →
      ∃ kj : K, ck.dec sl.kser = some kj ∧
        s.map kj = some ⟨b.size_per_item, 0 + j⟩ := by
    intro j sl hj
    obtain ⟨kj, vj, hslE, hmapj⟩ := hg.slot2idx b hb j sl hj
    refine ⟨kj, ?_, ?_⟩
    · rw [hslE]
      exact ck.dec_enc kj
    · rw [Nat.zero_add]
      exact hmapj
  obtain ⟨m', hrun, hcl⟩ := loadSlots_spec b.slots 0 m hspec
  refine ⟨m', hrun, ?_⟩
  intro k
  refine ⟨?_, ?_⟩
  · rintro ⟨j, hmk⟩
    obtain ⟨b2, hb2m, hb2sz, sl2, hsl2, hdec2⟩ := hg.idx2slot k _ j hmk
    have hb2b : b2 = b := nodup_size_unique hg.nd_sizes hb2m hb (hb2sz)
    subst hb2b
    exact (hcl k).1 ⟨j, sl2, hsl2, hdec2⟩
  · intro hnone
    refine (hcl k).2 ?_
    intro j sl hj hdk
    obtain ⟨kj, vj, hslE, hmapj⟩ := hg.slot2idx b hb j sl hj
    have hdk2 : ck.dec sl.kser = some kj := by
      rw [hslE]
      exact ck.dec_enc kj
    rw [hdk] at hdk2
    have hkj : kj = k := (Option.some.inj hdk2).symm
    subst hkj
    exact hnone j hmapj

/-- load_to_hashmap over any collection of buckets of a well-formed
folder. -/
theorem load_to_hashmap_spec {K V : Type} [DecidableEq K] {ck : Codec K}
    {cv : Codec V} {s : FolderCache K} (hg : GoodFolder ck cv s)
    (bs : List CacheLevel1) (hbs : ∀ b ∈ bs, b ∈ s.lvl2)
    (m : K → Option Ref) :
    ∃ m', load_to_hashmap ck bs m = .ok m' ∧
      ∀ k : K,
        ((∃ b ∈ bs, ∃ j : Nat, s.map k = some ⟨b.size_per_item, j⟩) →
          m' k = s.map k) ∧
        ((∀ b ∈ bs, ∀ j : Nat, s.map k ≠ some ⟨b.size_per_item, j⟩) →
          m' k = m k) := by
  induction bs generalizing m with
  | nil =>
    refine ⟨m, rfl, fun k => ⟨?_, fun _ => rfl⟩⟩
    rintro ⟨b, hb, _⟩
    exact absurd hb (List.not_mem_nil b)
  | cons b bs2 ih =>
    obtain ⟨m1, hrun1, hcl1⟩ :=
      loadSlots_bucket hg (hbs b (List.mem_cons_self _ _)) m
    obtain ⟨m', hrun2, hcl2⟩ :=
      ih (fun b2 hb2 => hbs b2 (List.mem_cons_of_mem _ hb2)) m1
    refine ⟨m', ?_, ?_⟩
    · unfold load_to_hashmap
      rw [hrun1]
      simp only []
      exact hrun2
    · intro k
      refine ⟨?_, ?_⟩
      · rintro ⟨b2, hb2, j, hmk⟩
        rcases List.mem_cons.mp hb2 with hb2b | hb2r
        · subst hb2b
          by_cases hrest : ∃ b3 ∈ bs2, ∃ j3 : Nat,
            s.map k = some ⟨b3.size_per_item, j3⟩
          · exact (hcl2 k).1 hrest
          · push_neg at hrest
            rw [(hcl2 k).2 hrest]
            exact (hcl1 k).1 ⟨j, hmk⟩
        · exact (hcl2 k).1 ⟨b2, hb2r, j, hmk⟩
      · intro hnone
        rw [(hcl2 k).2 (fun b2 hb2 => hnone b2 (List.mem_cons_of_mem _ hb2))]
        exact (hcl1 k).2 (hnone b (List.mem_cons_self _ _))

/-- FolderCache::continued over the bucket files of a well-formed folder
rebuilds exactly the in-memory index. -/
theorem continued_rebuilds {K V : Type} [DecidableEq K] {ck : Codec K}
    {cv : Codec V} {s : FolderCache K} (hg : GoodFolder ck cv s) :
    ∃ m : K → Option Ref,
      FolderCache.continued ck s.lvl2 = .ok ⟨s.lvl2, m⟩ ∧
      ∀ k : K, m k = s.map k := by
  obtain ⟨m', hrun, hcl⟩ :=
    load_to_hashmap_spec hg s.lvl2 (fun b hb => hb) (fun _ => none)
  refine ⟨m', ?_, ?_⟩
  · unfold FolderCache.continued
    rw [hrun]
  · intro k
    cases hmk : s.map k with
    | some r =>
      obtain ⟨f, j⟩ := r
      obtain ⟨b0, hb0m, hb0sz, sl0, hsl0, hdec0⟩ := hg.idx2slot k f j hmk
      rw [(hcl k).1 ⟨b0, hb0m, j, by rw [hb0sz]; exact hmk⟩]
      exact hmk
    | none =>
      rw [(hcl k).2 ?_]
      intro b hb j hc
      rw [hmk] at hc
      exact Option.noConfusion hc

theorem new_pos {K V B : Type} (b : B) {cap : Nat} (h : cap ≠ 0) :
    CacheMutBase.new (K := K) (V := V) b cap = some ⟨b, [], cap, []⟩ := by
  unfold CacheMutBase.new
  rw [if_neg h]

theorem insert_empty_eval {K V B E : Type} [DecidableEq K]
    (CC : CacheMutCompatible K V B E) (s : CacheMutBase K V B)
    (ha : s.active = []) (hl : s.lru = []) (k : K) (v : V) :
    CacheMutBase.insert CC s k v =
      (Res.ofExcept (CC.insert s.compatible k v).1,
        { s with compatible := (CC.insert s.compatible k v).2 }) := by
  unfold CacheMutBase.insert
  rw [ha, hl]
  rfl

theorem runCacheInserts_empty {K V B E : Type} [DecidableEq K]
    (CC : CacheMutCompatible K V B E) (s : CacheMutBase K V B)
    (ps : List (K × V)) (ha : s.active = []) (hl : s.lru = []) :
    (runCacheInserts CC s ps).active = [] ∧
    (runCacheInserts CC s ps).lru = [] ∧
    (runCacheInserts CC s ps).compatible = runBInserts CC s.compatible ps ∧
    (runCacheInserts CC s ps).cap = s.cap := by
  induction ps generalizing s with
  | nil => exact ⟨ha, hl, rfl, rfl⟩
  | cons p rest ih =>
    have h2 : (CacheMutBase.insert CC s p.1 p.2).2 =
        { s with compatible := (CC.insert s.compatible p.1 p.2).2 } := by
      rw [insert_empty_eval CC s ha hl p.1 p.2]
    show (runCacheInserts CC (CacheMutBase.insert CC s p.1 p.2).2 rest).active = [] ∧
      (runCacheInserts CC (CacheMutBase.insert CC s p.1 p.2).2 rest).lru = [] ∧
      (runCacheInserts CC (CacheMutBase.insert CC s p.1 p.2).2 rest).compatible =
        runBInserts CC (CC.insert s.compatible p.1 p.2).2 rest ∧
      (runCacheInserts CC (CacheMutBase.insert CC s p.1 p.2).2 rest).cap = s.cap
    rw [h2]
    exact ih { s with compatible := (CC.insert s.compatible p.1 p.2).2 } ha hl

theorem runB_folder {K V : Type} [DecidableEq K] (ck : Codec K)
    (cv : Codec V) (b : FolderCache K) (ps : List (K × V)) :
    runBInserts (folderCompatible ck cv) b ps =
      runF ck cv b (ps.map fun p => FOp.ins p.1 p.2) := by
  induction ps generalizing b with
  | nil => rfl
  | cons p rest ih =>
    show runBInserts (folderCompatible ck cv)
        ((folderCompatible ck cv).insert b p.1 p.2).2 rest = _
    exact ih ((folderCompatible ck cv).insert b p.1 p.2).2

theorem commit_empty_folder {K V : Type} [DecidableEq K] (ck : Codec K)
    (cv : Codec V) (s : CacheMutBase K V (FolderCache K))
    (ha : s.active = []) (hl : s.lru = []) :
    CacheMutBase.commit (folderCompatible ck cv) s = (.ok (), s) := by
  obtain ⟨b0, l0, c0, a0⟩ := s
  simp only [] at ha hl
  subst ha
  subst hl
  rfl

theorem folder_get_map_congr {K V : Type} (cv : Codec V)
    (ls : List CacheLevel1) (m1 m2 : K → Option Ref) (k : K)
    (h : m1 k = m2 k) :
    FolderCache.get cv ⟨ls, m1⟩ k = FolderCache.get cv ⟨ls, m2⟩ k := by
  unfold FolderCache.get
  simp only []
  rw [h]

theorem cache_get_empty_folder {K V : Type} [DecidableEq K] (ck : Codec K)
    (cv : Codec V) (s : CacheMutBase K V (FolderCache K))
    (ha : s.active = []) (hl : s.lru = []) {k : K} {v : V}
    (hv : FolderCache.get cv s.compatible k = .ok v) :
    CacheMutBase.get (folderCompatible ck cv) s k =
      some (.ok v,
        { s with active := ains s.active k ⟨false, 1, false, v⟩ }) := by
  obtain ⟨b0, l0, c0, a0⟩ := s
  simp only [] at ha hl hv
  subst ha
  subst hl
  unfold CacheMutBase.get
  simp only [alook, folderCompatible]
  rw [hv]

/-- C6: for the folder backend, inserting pairwise-distinct pairs through
the cache, dropping the cache (commit, a no-op here since nothing is
retained), and reopening the same folder with FolderCache::continued
yields exactly the inserted value from get of each inserted key, through
a fresh cache over the reopened folder. -/
theorem c6_roundtrip {K V : Type} [DecidableEq K] (ck : Codec K)
    (cv : Codec V) (ps : List (K × V)) (hnd : (ps.map Prod.fst).Nodup)
    (cap : Nat) (hcap : cap ≠ 0) :
    ∃ c0 c1 : CacheMutBase K V (FolderCache K),
      CacheMutBase.new (FolderCache.cleared K) cap = some c0 ∧
      runCacheInserts (folderCompatible ck cv) c0 ps = c1 ∧
      CacheMutBase.commit (folderCompatible ck cv) c1 = (.ok (), c1) ∧
      ∃ m : K → Option Ref,
        FolderCache.continued ck c1.compatible.lvl2 =
          .ok ⟨c1.compatible.lvl2, m⟩ ∧
        ∃ c2 : CacheMutBase K V (FolderCache K),
          CacheMutBase.new (⟨c1.compatible.lvl2, m⟩ : FolderCache K) cap =
            some c2 ∧
          ∀ p ∈ ps, ∃ c3, CacheMutBase.get (folderCompatible ck cv) c2 p.1 =
            some (.ok p.2, c3) := by
  refine ⟨⟨FolderCache.cleared K, [], cap, []⟩, _, new_pos _ hcap, rfl,
    ?_, ?_⟩
  · obtain ⟨hact, hlru, hcompat, hcap2⟩ := runCacheInserts_empty
      (folderCompatible ck cv) ⟨FolderCache.cleared K, [], cap, []⟩ ps rfl rfl
    exact commit_empty_folder ck cv _ hact hlru
  · obtain ⟨hact, hlru, hcompat, hcap2⟩ := runCacheInserts_empty
      (folderCompatible ck cv) ⟨FolderCache.cleared K, [], cap, []⟩ ps rfl rfl
    obtain ⟨hgF, hgets, hpres⟩ := runF_fresh_inserts ps (good_cleared ck cv)
      hnd (fun p hp => rfl)
    have hc1c : (runCacheInserts (folderCompatible ck cv)
        ⟨FolderCache.cleared K, [], cap, []⟩ ps).compatible =
        runF ck cv (FolderCache.cleared K)
          (ps.map fun p => FOp.ins p.1 p.2) := by
      rw [hcompat]
      exact runB_folder ck cv _ ps
    obtain ⟨m, hcont, hm⟩ := continued_rebuilds hgF
    refine ⟨m, ?_, ⟨_, [], cap, []⟩, new_pos _ hcap, ?_⟩
    · rw [hc1c]
      exact hcont
    · intro p hp
      refine ⟨_, cache_get_empty_folder ck cv _ rfl rfl ?_⟩
      show FolderCache.get cv
        (⟨(runCacheInserts (folderCompatible ck cv)
          ⟨FolderCache.cleared K, [], cap, []⟩ ps).compatible.lvl2, m⟩ :
            FolderCache K) p.1 = .ok p.2
      rw [hc1c]
      rw [folder_get_map_congr cv _ m
        (runF ck cv (FolderCache.cleared K)
          (ps.map fun p => FOp.ins p.1 p.2)).map p.1 (hm p.1)]
      exact hgets p hp

theorem c6_witness :
    ((([(7, 70), (8, 80)] : List (Nat × Nat)).map Prod.fst).Nodup) ∧
    ((2 : Nat) ≠ 0) ∧
    (∃ c0 c1 : CacheMutBase Nat Nat (FolderCache Nat),
      CacheMutBase.new (FolderCache.cleared Nat) 2 = some c0 ∧
      runCacheInserts (folderCompatible natCodec natCodec) c0
        [(7, 70), (8, 80)] = c1 ∧
      CacheMutBase.commit (folderCompatible natCodec natCodec) c1 =
        (.ok (), c1) ∧
      ∃ m : Nat → Option Ref,
        FolderCache.continued natCodec c1.compatible.lvl2 =
          .ok ⟨c1.compatible.lvl2, m⟩ ∧
        ∃ c2 : CacheMutBase Nat Nat (FolderCache Nat),
          CacheMutBase.new (⟨c1.compatible.lvl2, m⟩ : FolderCache Nat) 2 =
            some c2 ∧
          ∀ p ∈ ([(7, 70), (8, 80)] : List (Nat × Nat)), ∃ c3,
            CacheMutBase.get (folderCompatible natCodec natCodec) c2 p.1 =
              some (.ok p.2, c3)) :=
  ⟨by decide, by decide,
    c6_roundtrip natCodec natCodec [(7, 70), (8, 80)] (by decide) 2
      (by decide)⟩

end CacheModel
